import Mathlib

/-!
# Verification of the htree hash tree (hit9/htree)

A shallow embedding of `htree.go`.  The Go package implements an in-memory
hash tree keyed by successive residues of a 32-bit key modulo a fixed ladder
of primes.  Items are modelled as a key (a `Nat` holding the `uint32` value)
plus an opaque payload distinguishing items with equal keys; nodes are the
nested inductive `Node`; the tree's `length`/`conflicts` counters are `Int`
(Go `int`).  Go's fallible lookups (`nil` results) become `Option`.
-/

namespace HTreeGo

/-- A tree item: Go's `Item` interface exposes `Key() uint32`; the payload
field stands for whatever other data an implementation carries. -/
structure Item where
  key : Nat
  payload : Nat
deriving DecidableEq, Repr

/-- The `node` from htree.go: stored item, depth, remainder and ordered children. -/
inductive Node where
  | mk (item : Item) (depth : Nat) (remainder : Nat) (children : List Node)
deriving Repr

instance : Inhabited Node := ⟨Node.mk ⟨0, 0⟩ 0 0 []⟩

def Node.item : Node → Item
  | .mk it _ _ _ => it

def Node.depth : Node → Nat
  | .mk _ d _ _ => d

def Node.remainder : Node → Nat
  | .mk _ _ r _ => r

def Node.children : Node → List Node
  | .mk _ _ _ cs => cs

@[simp] theorem Node.item_mk (it d r cs) : (Node.mk it d r cs).item = it := rfl
@[simp] theorem Node.depth_mk (it d r cs) : (Node.mk it d r cs).depth = d := rfl
@[simp] theorem Node.remainder_mk (it d r cs) : (Node.mk it d r cs).remainder = r := rfl
@[simp] theorem Node.children_mk (it d r cs) : (Node.mk it d r cs).children = cs := rfl

theorem Node.eta (n : Node) : Node.mk n.item n.depth n.remainder n.children = n := by
  cases n <;> rfl

/-- The `HTree` from htree.go: sentinel root plus the two counters (Go `int`s).
Go's root is `&node{}` with a nil item; the dummy item of `default` plays
that role (the root's item is never read by any operation). -/
structure HTree where
  root : Node
  length : Int
  conflicts : Int

/-- The prime ladder `primes` used to build the tree. -/
def primes : List Nat := [2, 3, 5, 7, 11, 13, 17, 19, 23, 29]

/-- Lookup of `primes[depth]`; Go panics out of range, the default is never reached for
depths occurring in trees. -/
def prime (depth : Nat) : Nat := primes.getD depth 0

/-- The `modulo` from htree.go: remainder of key divided by `primes[depth]`. -/
def modulo (key : Nat) (depth : Nat) : Nat := key % prime depth

/-- The `newNode` from htree.go. -/
def newNode (item : Item) (depth : Nat) (remainder : Nat) : Node :=
  Node.mk item depth remainder []

/-- The `children.insert` from htree.go: insert a node at index `i`, shifting
later entries right. -/
def childInsert (s : List Node) (i : Nat) (n : Node) : List Node :=
  s.take i ++ n :: s.drop i

/-- The `children.delete` from htree.go: remove the entry at index `i`. -/
def childDelete (s : List Node) (i : Nat) : List Node :=
  s.take i ++ s.drop (i + 1)

/-- The loop of `children.search`: binary search narrowing `[left, right]`
until `left = right`; returns the final `left`. -/
def searchLoop (s : List Node) (r : Nat) (left right : Nat) : Nat :=
  if left < right then
    let mid := (left + right) / 2
    if r > ((s.getD mid default).remainder) then searchLoop s r (mid + 1) right
    else searchLoop s r left mid
  else left
termination_by right - left
decreasing_by
  all_goals simp_wf
  all_goals omega

/-- The `children.search` from htree.go: `(ok, left, right)`.  For a nonempty
array the loop exits with `left = right` (both narrow monotonically), so both
positions equal the loop's result; for an empty array Go returns
`(false, 0, -1)`, hence `right` is an `Int`. -/
def search (s : List Node) (r : Nat) : Bool × Nat × Int :=
  match s with
  | [] => (false, 0, -1)
  | _ :: _ =>
    let fin := searchLoop s r 0 (s.length - 1)
    if (s.getD fin default).remainder = r then (true, fin, (fin : Int))
    else (false, fin, (fin : Int))

theorem searchLoop_le (s : List Node) (r : Nat) :
    ∀ left right, left ≤ right → searchLoop s r left right ≤ right := by
  have key : ∀ d left right, right - left = d → left ≤ right →
      searchLoop s r left right ≤ right := by
    intro d
    induction d using Nat.strong_induction_on with
    | _ d ih =>
      intro left right hd h
      rw [searchLoop]
      split
      · next hlr =>
        simp only []
        split
        · exact ih (right - ((left + right) / 2 + 1)) (by omega) _ _ rfl (by omega)
        · exact le_trans (ih ((left + right) / 2 - left) (by omega) _ _ rfl (by omega))
            (by omega)
      · exact h
  exact fun left right h => key (right - left) left right rfl h

theorem search_snd_eq (c : Node) (cs : List Node) (r : Nat) :
    (search (c :: cs) r).2.1 = searchLoop (c :: cs) r 0 ((c :: cs).length - 1) := by
  simp only [search]
  split <;> rfl

theorem search_ok_lt {s : List Node} {r : Nat} :
    (search s r).1 = true → (search s r).2.1 < s.length := by
  intro h
  match s with
  | [] => simp [search] at h
  | c :: cs =>
    have hle := searchLoop_le (c :: cs) r 0 ((c :: cs).length - 1) (Nat.zero_le _)
    rw [search_snd_eq]
    simp only [List.length_cons] at hle ⊢
    omega

theorem sizeOf_children_lt (n : Node) : sizeOf n.children < sizeOf n := by
  cases n with
  | mk it d r cs => simp [Node.children]

theorem sizeOf_mem_children {c n : Node} (h : c ∈ n.children) : sizeOf c < sizeOf n :=
  lt_trans (List.sizeOf_lt_of_mem h) (sizeOf_children_lt n)

theorem sizeOf_getD_lt (n : Node) (i : Nat) (h : i < n.children.length) :
    sizeOf (n.children.getD i default) < sizeOf n := by
  apply sizeOf_mem_children
  rw [List.getD_eq_getElem _ _ h]
  exact List.getElem_mem h

/-- The `HTree.get` from htree.go (the recursive helper on nodes): find the item
with the query's key along the residue path, `nil`/`none` when absent. -/
def getNode (n : Node) (item : Item) : Option Item :=
  let r := modulo item.key n.depth
  let s := search n.children r
  if h : s.1 = true then
    let child := n.children.getD s.2.1 default
    if child.item.key = item.key then some child.item
    else getNode child item
  else none
termination_by sizeOf n
decreasing_by
  exact sizeOf_getD_lt n _ (search_ok_lt h)

/-- The `HTree.put` from htree.go (the recursive helper): returns the resulting
item (`none` on depth overflow), the updated node, and the deltas applied to
`t.length` and `t.conflicts`. -/
def putNode (n : Node) (item : Item) : Option Item × Node × Nat × Nat :=
  let r := modulo item.key n.depth
  let s := search n.children r
  if h : s.1 = true then
    let child := n.children.getD s.2.1 default
    if child.item.key = item.key then
      (some child.item, n, 0, 1)
    else
      let res := putNode child item
      (res.1, Node.mk n.item n.depth n.remainder (n.children.set s.2.1 res.2.1),
        res.2.2.1, res.2.2.2)
  else if n.depth ≥ primes.length - 1 then
    (none, n, 0, 0)
  else
    let child := newNode item (n.depth + 1) r
    let newChildren :=
      if n.children.length = 0 ∨
          (s.2.2 = (n.children.length : Int) - 1 ∧
            (n.children.getD s.2.2.toNat default).remainder ≤ r) then
        n.children ++ [child]
      else childInsert n.children s.2.2.toNat child
    (some child.item, Node.mk n.item n.depth n.remainder newChildren, 1, 0)
termination_by sizeOf n
decreasing_by
  exact sizeOf_getD_lt n _ (search_ok_lt h)

/-- The leaf-promotion loop of `HTree.delete`: on the forest `c :: cs`
(a node's children), follow first children from `c` down to a leaf, remove
that leaf from its immediate parent, and return the leaf's item together
with the modified forest. -/
def promote : Node → List Node → Item × List Node
  | Node.mk i d r [], cs => (i, cs)
  | Node.mk i d r (g :: gs), cs =>
    let res := promote g gs
    (res.1, Node.mk i d r res.2 :: cs)

/-- The `HTree.delete` from htree.go (the recursive helper): returns the removed
item (`none` when absent), the updated node, and the delta applied to
`t.length`. -/
def deleteNode (n : Node) (item : Item) : Option Item × Node × Nat :=
  let r := modulo item.key n.depth
  let s := search n.children r
  if h : s.1 = true then
    let child := n.children.getD s.2.1 default
    if child.item.key = item.key then
      match hc : child.children with
      | [] =>
        (some child.item, Node.mk n.item n.depth n.remainder (childDelete n.children s.2.1), 1)
      | g :: gs =>
        let res := promote g gs
        (some child.item,
          Node.mk n.item n.depth n.remainder
            (n.children.set s.2.1 (Node.mk res.1 child.depth child.remainder res.2)), 1)
    else
      let res := deleteNode child item
      (res.1, Node.mk n.item n.depth n.remainder (n.children.set s.2.1 res.2.1), res.2.2)
  else (none, n, 0)
termination_by sizeOf n
decreasing_by
  exact sizeOf_getD_lt n _ (search_ok_lt h)

/-- The `New` from htree.go: a tree whose root is the empty sentinel node. -/
def New : HTree := ⟨Node.mk ⟨0, 0⟩ 0 0 [], 0, 0⟩

/-- The `HTree.Len`. -/
def HTree.Len (t : HTree) : Int := t.length

/-- The `HTree.Conflicts`. -/
def HTree.conflictsOf (t : HTree) : Int := t.conflicts

/-- The `HTree.Get`. -/
def HTree.Get (t : HTree) (item : Item) : Option Item := getNode t.root item

/-- The `HTree.Put`, with the receiver's mutation of `length`/`conflicts` made
explicit: returns Go's return value paired with the updated tree. -/
def HTree.Put (t : HTree) (item : Item) : Option Item × HTree :=
  let res := putNode t.root item
  (res.1, ⟨res.2.1, t.length + res.2.2.1, t.conflicts + res.2.2.2⟩)

/-- The `HTree.Delete`, with the receiver's mutation made explicit. -/
def HTree.Delete (t : HTree) (item : Item) : Option Item × HTree :=
  let res := deleteNode t.root item
  (res.1, ⟨res.2.1, t.length - res.2.2, t.conflicts⟩)

/-- Run a sequence of `Put` calls, keeping the final tree. -/
def putAll (t : HTree) (items : List Item) : HTree :=
  items.foldl (fun acc it => (acc.Put it).2) t

/-- An item whose payload is its key, like the `htree.Uint32` instance. -/
def uitem (k : Nat) : Item := ⟨k, k⟩

/-! ## Reachability of the depth-overflow branch

`put` refuses to create a child below a node of depth `len(primes)-1 = 9`,
so nodes never exceed depth 9 and only `primes[0..8]` ever distinguish two
keys.  Their product `2*3*5*7*11*13*17*19*23 = 223092870` is smaller than
`2^32`, so the ten pairwise-distinct 32-bit keys `0, M, 2M, ..., 9M` with
`M = 223092870` agree modulo every prime the tree can use: the first nine
build a single chain of depth 9 and the tenth `put` hits the overflow
branch.  The following definitions name those keys and the chain. -/

/-- The product of the first nine ladder primes. -/
def M : Nat := 223092870

/-- The item with key `j * M`. -/
def mitem (j : Nat) : Item := uitem (j * M)

/-- The chain node holding key `j*M` at depth `j+1`, with `d` further chain
nodes below it; every remainder on the chain is 0. -/
def mchain : Nat → Nat → Node
  | j, 0 => Node.mk (uitem (M * j)) (j + 1) 0 []
  | j, d + 1 => Node.mk (uitem (M * j)) (j + 1) 0 [mchain (j + 1) d]

/-- The tree reached after putting `mitem 0, ..., mitem j` (for `j ≤ 8`):
a single chain of depth `j+1` holding those keys. -/
def mtree (j : Nat) : HTree := ⟨Node.mk ⟨0, 0⟩ 0 0 [mchain 0 j], (j : Int) + 1, 0⟩

set_option maxRecDepth 100000 in
theorem mput_step0 : (New.Put (mitem 0)).2 = mtree 0 := by
  simp [New, mtree, HTree.Put, putNode, search, searchLoop, modulo, prime, primes,
    newNode, childInsert, uitem, mitem, mchain, M]

set_option maxRecDepth 100000 in
theorem mput_step1 : ((mtree 0).Put (mitem 1)).2 = mtree 1 := by
  simp [mtree, HTree.Put, putNode, search, searchLoop, modulo, prime, primes,
    newNode, childInsert, uitem, mitem, mchain, M]

set_option maxRecDepth 100000 in
theorem mput_step2 : ((mtree 1).Put (mitem 2)).2 = mtree 2 := by
  simp [mtree, HTree.Put, putNode, search, searchLoop, modulo, prime, primes,
    newNode, childInsert, uitem, mitem, mchain, M]

set_option maxRecDepth 100000 in
theorem mput_step3 : ((mtree 2).Put (mitem 3)).2 = mtree 3 := by
  simp [mtree, HTree.Put, putNode, search, searchLoop, modulo, prime, primes,
    newNode, childInsert, uitem, mitem, mchain, M]

set_option maxRecDepth 100000 in
theorem mput_step4 : ((mtree 3).Put (mitem 4)).2 = mtree 4 := by
  simp [mtree, HTree.Put, putNode, search, searchLoop, modulo, prime, primes,
    newNode, childInsert, uitem, mitem, mchain, M]

set_option maxRecDepth 100000 in
theorem mput_step5 : ((mtree 4).Put (mitem 5)).2 = mtree 5 := by
  simp [mtree, HTree.Put, putNode, search, searchLoop, modulo, prime, primes,
    newNode, childInsert, uitem, mitem, mchain, M]

set_option maxRecDepth 100000 in
theorem mput_step6 : ((mtree 5).Put (mitem 6)).2 = mtree 6 := by
  simp [mtree, HTree.Put, putNode, search, searchLoop, modulo, prime, primes,
    newNode, childInsert, uitem, mitem, mchain, M]

set_option maxRecDepth 100000 in
theorem mput_step7 : ((mtree 6).Put (mitem 7)).2 = mtree 7 := by
  simp [mtree, HTree.Put, putNode, search, searchLoop, modulo, prime, primes,
    newNode, childInsert, uitem, mitem, mchain, M]

set_option maxRecDepth 100000 in
theorem mput_step8 : ((mtree 7).Put (mitem 8)).2 = mtree 8 := by
  simp [mtree, HTree.Put, putNode, search, searchLoop, modulo, prime, primes,
    newNode, childInsert, uitem, mitem, mchain, M]

set_option maxRecDepth 100000 in
theorem mput_step9 : (mtree 8).Put (mitem 9) = (none, mtree 8) := by
  simp [mtree, HTree.Put, putNode, search, searchLoop, modulo, prime, primes,
    newNode, childInsert, uitem, mitem, mchain, M]

/-- The ten keys as a put sequence. -/
def mitems : List Item :=
  [mitem 0, mitem 1, mitem 2, mitem 3, mitem 4, mitem 5, mitem 6, mitem 7,
    mitem 8, mitem 9]

theorem putAll_mitems : putAll New mitems = mtree 8 := by
  simp only [putAll, mitems, List.foldl]
  rw [mput_step0, mput_step1, mput_step2, mput_step3, mput_step4, mput_step5,
    mput_step6, mput_step7, mput_step8]
  rw [show ((mtree 8).Put (mitem 9)).2 = mtree 8 from congrArg Prod.snd mput_step9]

set_option maxRecDepth 100000 in
theorem mtree8_get_none : (mtree 8).Get (mitem 9) = none := by
  simp [mtree, HTree.Get, getNode, search, searchLoop, modulo, prime, primes,
    uitem, mitem, mchain, M]

/-- The first nine of the ten keys. -/
def mitems9 : List Item :=
  [mitem 0, mitem 1, mitem 2, mitem 3, mitem 4, mitem 5, mitem 6, mitem 7,
    mitem 8]

theorem putAll_mitems9 : putAll New mitems9 = mtree 8 := by
  simp only [putAll, mitems9, List.foldl]
  rw [mput_step0, mput_step1, mput_step2, mput_step3, mput_step4, mput_step5,
    mput_step6, mput_step7, mput_step8]

/-- C1 (refuted on the code): `mitems` is a sequence of 10 pairwise-distinct
32-bit keys, yet after putting all of them into a fresh tree the length is 9,
not 10, and `Get` on the tenth inserted key returns absent.  The guard
`n.depth >= len(primes)-1` in `put` cuts the tree off at depth 9, so only the
first nine primes (product `223092870 < 2^32`) ever separate keys, contrary
to the package documentation's claim that the ten primes distinguish all
`uint32` values. -/
theorem c1_put_sequence_fails :
    (mitems.map Item.key).Nodup ∧
    mitems.length = 10 ∧
    (mitems.map Item.key).all (fun k => k < 2 ^ 32) = true ∧
    (putAll New mitems).Len = 9 ∧
    (putAll New mitems).Get (mitem 9) = none := by
  refine ⟨by decide, by decide, by decide, ?_, ?_⟩
  · rw [putAll_mitems]; rfl
  · rw [putAll_mitems]; exact mtree8_get_none

/-- C2 (refuted on the code): the depth-overflow branch of `put` is
reachable for pairwise-distinct valid keys.  After putting the nine
pairwise-distinct 32-bit keys `0, M, ..., 8M` (`M = 223092870`, the product
of the first nine primes) into a fresh tree, putting the distinct 32-bit key
`9M` returns absent: the put matches the existing chain down to its depth-9
leaf and then takes the branch guarded by `n.depth >= len(primes)-1`. -/
theorem c2_depth_overflow_reachable :
    ((mitems9 ++ [mitem 9]).map Item.key).Nodup ∧
    ((mitems9 ++ [mitem 9]).map Item.key).all (fun k => k < 2 ^ 32) = true ∧
    ((putAll New mitems9).Put (mitem 9)).1 = none := by
  refine ⟨by decide, by decide, ?_⟩
  rw [putAll_mitems9]
  exact congrArg Prod.fst mput_step9

/-! ## Stored items, keys, and structural induction -/

/-- All items stored in a forest, in pre-order (each node before its
descendants, children in array order). -/
def itemsF : List Node → List Item
  | [] => []
  | Node.mk i _ _ gs :: cs => i :: (itemsF gs ++ itemsF cs)

/-- All items stored in the subtree of one node, in pre-order. -/
def itemsN (n : Node) : List Item := n.item :: itemsF n.children

/-- All keys stored in a forest. -/
def keysF (l : List Node) : List Nat := (itemsF l).map Item.key

@[simp] theorem itemsF_nil : itemsF [] = [] := by simp [itemsF]

theorem itemsF_cons (c : Node) (cs : List Node) :
    itemsF (c :: cs) = itemsN c ++ itemsF cs := by
  cases c
  simp [itemsF, itemsN]

theorem itemsF_append (l₁ l₂ : List Node) :
    itemsF (l₁ ++ l₂) = itemsF l₁ ++ itemsF l₂ := by
  induction l₁ with
  | nil => simp
  | cons c cs ih => rw [List.cons_append, itemsF_cons, itemsF_cons, ih, List.append_assoc]

theorem mem_itemsF_of_mem {c : Node} {cs : List Node} (h : c ∈ cs) :
    ∀ x ∈ itemsN c, x ∈ itemsF cs := by
  induction cs with
  | nil => cases h
  | cons d ds ih =>
    intro x hx
    rw [itemsF_cons, List.mem_append]
    rcases List.mem_cons.1 h with h | h
    · exact Or.inl (h ▸ hx)
    · exact Or.inr (ih h x hx)

/-- Strong induction over nodes: descend to the members of `children`. -/
def nodeStrongInd (P : Node → Prop) (h : ∀ n, (∀ c ∈ n.children, P c) → P n) :
    ∀ n, P n :=
  fun n => h n (fun c hc => nodeStrongInd P h c)
termination_by n => sizeOf n
decreasing_by exact sizeOf_mem_children hc

/-- Decompose a list around index `i`. -/
theorem list_decomp {α : Type} [Inhabited α] (l : List α) (i : Nat) (h : i < l.length) :
    l = l.take i ++ l.getD i default :: l.drop (i + 1) := by
  induction l generalizing i with
  | nil => cases h
  | cons a as ih =>
    cases i with
    | zero => simp
    | succ j =>
      simp only [List.take_succ_cons, List.getD_cons_succ, List.drop_succ_cons,
        List.cons_append, List.cons.injEq, true_and]
      exact ih j (by simpa using h)

theorem list_set_decomp {α : Type} (l : List α) (i : Nat) (x : α) (h : i < l.length) :
    l.set i x = l.take i ++ x :: l.drop (i + 1) := by
  induction l generalizing i with
  | nil => cases h
  | cons a as ih =>
    cases i with
    | zero => simp
    | succ j =>
      simp only [List.set_cons_succ, List.take_succ_cons, List.drop_succ_cons,
        List.cons_append, List.cons.injEq, true_and]
      exact ih j (by simpa using h)

theorem list_set_getD_self {α : Type} [Inhabited α] (l : List α) (i : Nat)
    (h : i < l.length) : l.set i (l.getD i default) = l := by
  rw [list_set_decomp l i _ h]
  exact (list_decomp l i h).symm

/-! ## Characterising the binary search -/

/-- The remainder stored at index `i` of a children array. -/
def remAt (s : List Node) (i : Nat) : Nat := (s.getD i default).remainder

/-- Strict ascending order of sibling remainders, as an indexed statement. -/
def SortedAt (s : List Node) : Prop :=
  ∀ i j, i < j → j < s.length → remAt s i < remAt s j

theorem searchLoop_spec (s : List Node) (r : Nat) (hs : SortedAt s) :
    ∀ left right, left ≤ right → right < s.length →
      (∀ j, j < left → remAt s j < r) →
      (r ≤ remAt s right ∨ right = s.length - 1) →
      left ≤ searchLoop s r left right ∧ searchLoop s r left right ≤ right ∧
        (∀ j, j < searchLoop s r left right → remAt s j < r) ∧
        (r ≤ remAt s (searchLoop s r left right) ∨
          searchLoop s r left right = s.length - 1) := by
  have key : ∀ d left right, right - left = d → left ≤ right → right < s.length →
      (∀ j, j < left → remAt s j < r) →
      (r ≤ remAt s right ∨ right = s.length - 1) →
      left ≤ searchLoop s r left right ∧ searchLoop s r left right ≤ right ∧
        (∀ j, j < searchLoop s r left right → remAt s j < r) ∧
        (r ≤ remAt s (searchLoop s r left right) ∨
          searchLoop s r left right = s.length - 1) := by
    intro d
    induction d using Nat.strong_induction_on with
    | _ d ih =>
      intro left right hd hlr hrlen h1 h2
      rw [searchLoop]
      split
      · next hlt =>
        simp only []
        split
        · next hgt =>
          have hmid : (left + right) / 2 < s.length := by omega
          have h1' : ∀ j, j < (left + right) / 2 + 1 → remAt s j < r := by
            intro j hj
            rcases Nat.lt_or_ge j left with hjl | hjl
            · exact h1 j hjl
            · rcases Nat.lt_or_ge j ((left + right) / 2) with hjm | hjm
              · exact lt_trans (hs j _ hjm hmid) hgt
              · have : j = (left + right) / 2 := by omega
                exact this ▸ hgt
          have := ih (right - ((left + right) / 2 + 1)) (by omega)
            ((left + right) / 2 + 1) right rfl (by omega) hrlen h1' h2
          exact ⟨by omega, this.2.1, this.2.2.1, this.2.2.2⟩
        · next hle =>
          have h2' : r ≤ remAt s ((left + right) / 2) ∨
              (left + right) / 2 = s.length - 1 :=
            Or.inl (by simp only [remAt]; omega)
          have := ih ((left + right) / 2 - left) (by omega) left ((left + right) / 2)
            rfl (by omega) (by omega) h1 h2'
          exact ⟨this.1, by omega, this.2.2.1, this.2.2.2⟩
      · next hnlt =>
        have heq : left = right := by omega
        subst heq
        exact ⟨Nat.le_refl _, Nat.le_refl _, h1, h2⟩
  exact fun left right h hr h1 h2 => key (right - left) left right rfl h hr h1 h2

theorem search_found_rem {s : List Node} {r : Nat} (h : (search s r).1 = true) :
    remAt s (search s r).2.1 = r := by
  match s with
  | [] => simp [search] at h
  | c :: cs =>
    rw [search_snd_eq]
    simp only [search] at h
    split at h
    · next heq => exact heq
    · simp at h

theorem search_right_eq (c : Node) (cs : List Node) (r : Nat) :
    (search (c :: cs) r).2.2 = ((search (c :: cs) r).2.1 : Int) := by
  simp only [search]
  split <;> rfl

/-- The facts put's insertion logic needs about an unsuccessful search on a
sorted nonempty array: all entries left of the final position are below `r`,
and either the final entry is at or above `r` or it is the last index. -/
theorem search_not_found_spec {c : Node} {cs : List Node} {r : Nat}
    (hs : SortedAt (c :: cs)) (h : (search (c :: cs) r).1 = false) :
    (search (c :: cs) r).2.1 < (c :: cs).length ∧
    remAt (c :: cs) (search (c :: cs) r).2.1 ≠ r ∧
    (∀ j, j < (search (c :: cs) r).2.1 → remAt (c :: cs) j < r) ∧
    (r ≤ remAt (c :: cs) (search (c :: cs) r).2.1 ∨
      (search (c :: cs) r).2.1 = (c :: cs).length - 1) := by
  have hspec := searchLoop_spec (c :: cs) r hs 0 ((c :: cs).length - 1)
    (Nat.zero_le _) (by simp) (by omega) (Or.inr rfl)
  have hfin := search_snd_eq c cs r
  refine ⟨?_, ?_, ?_, ?_⟩
  · rw [hfin]; simp only [List.length_cons] at hspec ⊢; omega
  · intro hrem
    rw [hfin] at hrem
    have hrem' : ((c :: cs).getD (searchLoop (c :: cs) r 0 ((c :: cs).length - 1))
        default).remainder = r := hrem
    simp only [search] at h
    rw [if_pos hrem'] at h
    simp at h
  · rw [hfin]; exact hspec.2.2.1
  · rw [hfin]; exact hspec.2.2.2

theorem search_not_found_not_mem {s : List Node} {r : Nat}
    (hs : SortedAt s) (h : (search s r).1 = false) :
    ∀ j, j < s.length → remAt s j ≠ r := by
  match s with
  | [] => intro j hj; simp at hj
  | c :: cs =>
    obtain ⟨hlt, hne, hbelow, habove⟩ := search_not_found_spec hs h
    intro j hj
    rcases Nat.lt_trichotomy j (search (c :: cs) r).2.1 with hjf | hjf | hjf
    · exact Nat.ne_of_lt (hbelow j hjf)
    · exact hjf ▸ hne
    · rcases habove with hge | hlast
      · have h1 : remAt (c :: cs) (search (c :: cs) r).2.1 < remAt (c :: cs) j :=
          hs _ j hjf hj
        omega
      · omega

theorem search_complete {s : List Node} {r : Nat} (hs : SortedAt s)
    {i : Nat} (hi : i < s.length) (hr : remAt s i = r) :
    (search s r).1 = true ∧ (search s r).2.1 = i := by
  have hok : (search s r).1 = true := by
    by_contra hne
    exact search_not_found_not_mem hs (Bool.not_eq_true _ ▸ hne) i hi hr
  refine ⟨hok, ?_⟩
  have hfr := search_found_rem hok
  have hfl := search_ok_lt hok
  rcases Nat.lt_trichotomy (search s r).2.1 i with hlt | heq | hgt
  · have := hs _ i hlt hi
    omega
  · exact heq
  · have := hs i _ hgt hfl
    omega

/-- The child at index `i` of `n`. -/
def childAt (n : Node) (i : Nat) : Node := n.children.getD i default

/-! ### Branch lemmas for `getNode`, `putNode`, `deleteNode` -/

theorem getNode_not_found {n : Node} {it : Item}
    (h : (search n.children (modulo it.key n.depth)).1 = false) :
    getNode n it = none := by
  rw [getNode]
  simp only [h]
  simp

theorem getNode_found_eq {n : Node} {it : Item}
    (h : (search n.children (modulo it.key n.depth)).1 = true)
    (hk : (childAt n (search n.children (modulo it.key n.depth)).2.1).item.key = it.key) :
    getNode n it = some (childAt n (search n.children (modulo it.key n.depth)).2.1).item := by
  rw [getNode]
  simp only [childAt] at hk
  simp only [dif_pos h, if_pos hk]
  rfl

theorem getNode_found_ne {n : Node} {it : Item}
    (h : (search n.children (modulo it.key n.depth)).1 = true)
    (hk : (childAt n (search n.children (modulo it.key n.depth)).2.1).item.key ≠ it.key) :
    getNode n it =
      getNode (childAt n (search n.children (modulo it.key n.depth)).2.1) it := by
  rw [getNode]
  simp only [childAt] at hk ⊢
  simp only [dif_pos h, if_neg hk]

theorem putNode_conflict {n : Node} {it : Item}
    (h : (search n.children (modulo it.key n.depth)).1 = true)
    (hk : (childAt n (search n.children (modulo it.key n.depth)).2.1).item.key = it.key) :
    putNode n it =
      (some (childAt n (search n.children (modulo it.key n.depth)).2.1).item, n, 0, 1) := by
  rw [putNode]
  simp only [childAt] at hk
  simp only [dif_pos h, if_pos hk]
  rfl

theorem putNode_recurse {n : Node} {it : Item}
    (h : (search n.children (modulo it.key n.depth)).1 = true)
    (hk : (childAt n (search n.children (modulo it.key n.depth)).2.1).item.key ≠ it.key) :
    putNode n it =
      ((putNode (childAt n (search n.children (modulo it.key n.depth)).2.1) it).1,
        Node.mk n.item n.depth n.remainder
          (n.children.set (search n.children (modulo it.key n.depth)).2.1
            (putNode (childAt n (search n.children (modulo it.key n.depth)).2.1) it).2.1),
        (putNode (childAt n (search n.children (modulo it.key n.depth)).2.1) it).2.2.1,
        (putNode (childAt n (search n.children (modulo it.key n.depth)).2.1) it).2.2.2) := by
  rw [putNode]
  simp only [childAt] at hk ⊢
  simp only [dif_pos h, if_neg hk]

theorem putNode_overflow {n : Node} {it : Item}
    (h : (search n.children (modulo it.key n.depth)).1 = false)
    (hd : n.depth ≥ primes.length - 1) :
    putNode n it = (none, n, 0, 0) := by
  rw [putNode]
  simp only [h]
  simp [hd]

theorem putNode_append {n : Node} {it : Item}
    (h : (search n.children (modulo it.key n.depth)).1 = false)
    (hd : ¬ n.depth ≥ primes.length - 1)
    (hc : n.children.length = 0 ∨
      ((search n.children (modulo it.key n.depth)).2.2 = (n.children.length : Int) - 1 ∧
        (n.children.getD (search n.children (modulo it.key n.depth)).2.2.toNat
          default).remainder ≤ modulo it.key n.depth)) :
    putNode n it =
      (some it,
        Node.mk n.item n.depth n.remainder
          (n.children ++ [newNode it (n.depth + 1) (modulo it.key n.depth)]), 1, 0) := by
  rw [putNode]
  simp only [h]
  simp only [Bool.false_eq_true, ↓reduceDIte, hd, ↓reduceIte, if_pos hc]
  rfl

theorem putNode_insert {n : Node} {it : Item}
    (h : (search n.children (modulo it.key n.depth)).1 = false)
    (hd : ¬ n.depth ≥ primes.length - 1)
    (hc : ¬ (n.children.length = 0 ∨
      ((search n.children (modulo it.key n.depth)).2.2 = (n.children.length : Int) - 1 ∧
        (n.children.getD (search n.children (modulo it.key n.depth)).2.2.toNat
          default).remainder ≤ modulo it.key n.depth))) :
    putNode n it =
      (some it,
        Node.mk n.item n.depth n.remainder
          (childInsert n.children (search n.children (modulo it.key n.depth)).2.2.toNat
            (newNode it (n.depth + 1) (modulo it.key n.depth))), 1, 0) := by
  rw [putNode]
  simp only [h]
  simp only [Bool.false_eq_true, ↓reduceDIte, hd, ↓reduceIte, if_neg hc]
  rfl

theorem deleteNode_not_found {n : Node} {it : Item}
    (h : (search n.children (modulo it.key n.depth)).1 = false) :
    deleteNode n it = (none, n, 0) := by
  rw [deleteNode]
  simp only [h]
  simp

theorem deleteNode_recurse {n : Node} {it : Item}
    (h : (search n.children (modulo it.key n.depth)).1 = true)
    (hk : (childAt n (search n.children (modulo it.key n.depth)).2.1).item.key ≠ it.key) :
    deleteNode n it =
      ((deleteNode (childAt n (search n.children (modulo it.key n.depth)).2.1) it).1,
        Node.mk n.item n.depth n.remainder
          (n.children.set (search n.children (modulo it.key n.depth)).2.1
            (deleteNode (childAt n (search n.children (modulo it.key n.depth)).2.1) it).2.1),
        (deleteNode (childAt n (search n.children (modulo it.key n.depth)).2.1) it).2.2) := by
  rw [deleteNode]
  simp only [childAt] at hk ⊢
  simp only [dif_pos h, if_neg hk]

theorem deleteNode_leaf {n : Node} {it : Item}
    (h : (search n.children (modulo it.key n.depth)).1 = true)
    (hk : (childAt n (search n.children (modulo it.key n.depth)).2.1).item.key = it.key)
    (hc : (childAt n (search n.children (modulo it.key n.depth)).2.1).children = []) :
    deleteNode n it =
      (some (childAt n (search n.children (modulo it.key n.depth)).2.1).item,
        Node.mk n.item n.depth n.remainder
          (childDelete n.children (search n.children (modulo it.key n.depth)).2.1), 1) := by
  rw [deleteNode]
  simp only [childAt] at hk hc ⊢
  simp only [dif_pos h, if_pos hk]
  split
  · rfl
  · next g2 gs2 heq =>
    rw [hc] at heq
    simp at heq

theorem deleteNode_promote {n : Node} {it : Item} {g : Node} {gs : List Node}
    (h : (search n.children (modulo it.key n.depth)).1 = true)
    (hk : (childAt n (search n.children (modulo it.key n.depth)).2.1).item.key = it.key)
    (hc : (childAt n (search n.children (modulo it.key n.depth)).2.1).children = g :: gs) :
    deleteNode n it =
      (some (childAt n (search n.children (modulo it.key n.depth)).2.1).item,
        Node.mk n.item n.depth n.remainder
          (n.children.set (search n.children (modulo it.key n.depth)).2.1
            (Node.mk (promote g gs).1
              (childAt n (search n.children (modulo it.key n.depth)).2.1).depth
              (childAt n (search n.children (modulo it.key n.depth)).2.1).remainder
              (promote g gs).2)), 1) := by
  rw [deleteNode]
  simp only [childAt] at hk hc ⊢
  simp only [dif_pos h, if_pos hk]
  split
  · next heq =>
    rw [hc] at heq
    simp at heq
  · next g2 gs2 heq =>
    rw [hc] at heq
    obtain ⟨rfl, rfl⟩ : g = g2 ∧ gs = gs2 := by simpa using heq
    rfl

/-! ## Item multiset bookkeeping for put and delete -/

theorem childAt_mem {n : Node} {i : Nat} (h : i < n.children.length) :
    childAt n i ∈ n.children := by
  rw [childAt, List.getD_eq_getElem _ _ h]
  exact List.getElem_mem h

theorem itemsF_decomp {l : List Node} {i : Nat} (h : i < l.length) :
    itemsF l = itemsF (l.take i) ++ (itemsN (l.getD i default) ++ itemsF (l.drop (i + 1))) := by
  conv_lhs => rw [list_decomp l i h]
  rw [itemsF_append, itemsF_cons]

theorem itemsF_set {l : List Node} {i : Nat} (h : i < l.length) (c : Node) :
    itemsF (l.set i c) = itemsF (l.take i) ++ (itemsN c ++ itemsF (l.drop (i + 1))) := by
  rw [list_set_decomp l i c h, itemsF_append, itemsF_cons]

theorem itemsF_childDelete {l : List Node} {i : Nat} :
    itemsF (childDelete l i) = itemsF (l.take i) ++ itemsF (l.drop (i + 1)) := by
  rw [childDelete, itemsF_append]

/-- Replacing the child at `i` by a node whose subtree items are `x` plus
the old subtree's items adds exactly `x` to the forest's items. -/
theorem itemsF_set_perm {l : List Node} {i : Nat} (h : i < l.length) {c : Node} {x : Item}
    (hperm : List.Perm (itemsN c) (x :: itemsN (l.getD i default))) :
    List.Perm (itemsF (l.set i c)) (x :: itemsF l) := by
  rw [itemsF_set h c, itemsF_decomp h]
  exact (List.Perm.append_left _ (hperm.append_right _)).trans List.perm_middle

/-- The leaf promotion returns the item of the leaf reached by following
first children, and the forest keeps every other item: removing the leaf and
re-adding its item is a permutation. -/
theorem promote_perm : ∀ (c : Node) (rest : List Node),
    List.Perm (itemsF (c :: rest)) ((promote c rest).1 :: itemsF (promote c rest).2) := by
  intro c
  induction c using nodeStrongInd with
  | _ c ih =>
    intro rest
    cases c with
    | mk i d r cs =>
      cases cs with
      | nil =>
        rw [promote]
        rw [itemsF_cons]
        simp [itemsN]
      | cons g gs =>
        have hg := ih g (by simp) gs
        rw [promote]
        simp only []
        rw [itemsF_cons, itemsF_cons, itemsN, itemsN]
        simp only [Node.item_mk, Node.children_mk]
        exact ((hg.append_right (itemsF rest)).cons i).trans (List.Perm.swap _ _ _)

theorem getNode_sound : ∀ (n : Node) (it j : Item), getNode n it = some j →
    j ∈ itemsF n.children ∧ j.key = it.key := by
  intro n
  induction n using nodeStrongInd with
  | _ n ih =>
    intro it j hj
    by_cases hok : (search n.children (modulo it.key n.depth)).1 = true
    · have hlt : (search n.children (modulo it.key n.depth)).2.1 < n.children.length :=
        search_ok_lt hok
      have hmem := childAt_mem hlt
      by_cases hk :
          (childAt n (search n.children (modulo it.key n.depth)).2.1).item.key = it.key
      · rw [getNode_found_eq hok hk] at hj
        obtain rfl : (childAt n (search n.children (modulo it.key n.depth)).2.1).item = j :=
          Option.some.inj hj
        exact ⟨mem_itemsF_of_mem hmem _ (List.mem_cons_self _ _), hk⟩
      · rw [getNode_found_ne hok hk] at hj
        have hrec := ih _ hmem it j hj
        exact ⟨mem_itemsF_of_mem hmem j (List.mem_cons_of_mem _ hrec.1), hrec.2⟩
    · rw [getNode_not_found (Bool.not_eq_true _ ▸ hok)] at hj
      cases hj

/-- The joint branch structure of `get` and `put`: both walk the same
residue path, so a put either hits the conflict branch exactly when get
succeeds, or fails with depth overflow, or creates one node carrying the
new item, returning it and leaving everything else in place. -/
theorem putNode_spec : ∀ (n : Node) (it : Item),
    (∃ j, getNode n it = some j ∧ putNode n it = (some j, n, 0, 1)) ∨
    (getNode n it = none ∧ putNode n it = (none, n, 0, 0)) ∨
    (getNode n it = none ∧ (putNode n it).1 = some it ∧
      (putNode n it).2.2 = (1, 0) ∧
      (putNode n it).2.1.item = n.item ∧
      (putNode n it).2.1.depth = n.depth ∧
      (putNode n it).2.1.remainder = n.remainder ∧
      List.Perm (itemsF (putNode n it).2.1.children) (it :: itemsF n.children)) := by
  intro n
  induction n using nodeStrongInd with
  | _ n ih =>
    intro it
    by_cases hok : (search n.children (modulo it.key n.depth)).1 = true
    · have hlt : (search n.children (modulo it.key n.depth)).2.1 < n.children.length :=
        search_ok_lt hok
      have hmem := childAt_mem hlt
      by_cases hk :
          (childAt n (search n.children (modulo it.key n.depth)).2.1).item.key = it.key
      · exact Or.inl ⟨_, getNode_found_eq hok hk, putNode_conflict hok hk⟩
      · rw [getNode_found_ne hok hk]
        rw [putNode_recurse hok hk]
        rcases ih _ hmem it with ⟨j, hgj, hpj⟩ | ⟨hgn, hpn⟩ | ⟨hgn, hp1, hp2, hpi, hpd, hpr, hperm⟩
        · refine Or.inl ⟨j, hgj, ?_⟩
          rw [hpj]
          simp only []
          rw [childAt, list_set_getD_self _ _ hlt, Node.eta]
        · refine Or.inr (Or.inl ⟨hgn, ?_⟩)
          rw [hpn]
          simp only []
          rw [childAt, list_set_getD_self _ _ hlt, Node.eta]
        · refine Or.inr (Or.inr ⟨hgn, hp1, hp2, rfl, rfl, rfl, ?_⟩)
          simp only [Node.children_mk]
          apply itemsF_set_perm hlt
          rw [itemsN, itemsN, hpi]
          exact (hperm.cons _).trans (List.Perm.swap _ _ _)
    · have hok' : (search n.children (modulo it.key n.depth)).1 = false :=
        Bool.not_eq_true _ ▸ hok
      rw [getNode_not_found hok']
      by_cases hd : n.depth ≥ primes.length - 1
      · exact Or.inr (Or.inl ⟨rfl, putNode_overflow hok' hd⟩)
      · by_cases hc : n.children.length = 0 ∨
          ((search n.children (modulo it.key n.depth)).2.2 = (n.children.length : Int) - 1 ∧
            (n.children.getD (search n.children (modulo it.key n.depth)).2.2.toNat
              default).remainder ≤ modulo it.key n.depth)
        · rw [putNode_append hok' hd hc]
          refine Or.inr (Or.inr ⟨rfl, rfl, rfl, rfl, rfl, rfl, ?_⟩)
          simp only [Node.children_mk]
          rw [itemsF_append, itemsF_cons, itemsF_nil, itemsN, newNode]
          simp only [Node.item_mk, Node.children_mk, itemsF_nil, List.append_nil]
          exact List.perm_append_singleton _ _
        · rw [putNode_insert hok' hd hc]
          refine Or.inr (Or.inr ⟨rfl, rfl, rfl, rfl, rfl, rfl, ?_⟩)
          simp only [Node.children_mk]
          rw [childInsert, itemsF_append, itemsF_cons, itemsN, newNode]
          simp only [Node.item_mk, Node.children_mk, itemsF_nil, List.nil_append]
          conv_rhs => rw [show n.children =
            n.children.take (search n.children (modulo it.key n.depth)).2.2.toNat ++
            n.children.drop (search n.children (modulo it.key n.depth)).2.2.toNat from
            List.take_append_drop _ _ |>.symm]
          rw [itemsF_append]
          exact List.perm_middle

/-- Removing one item from the subtree at index `i` removes exactly that
item from the forest's items. -/
theorem itemsF_set_perm_rm {l : List Node} {i : Nat} (h : i < l.length) {c : Node} {x : Item}
    (hperm : List.Perm (itemsN (l.getD i default)) (x :: itemsN c)) :
    List.Perm (itemsF l) (x :: itemsF (l.set i c)) := by
  rw [itemsF_set h c, itemsF_decomp h]
  exact (List.Perm.append_left _ (hperm.append_right _)).trans List.perm_middle

/-- The joint branch structure of `get` and `delete`: a delete returns
absent and changes nothing exactly when get does, and otherwise removes the
node get finds, returning its item, decrementing by one, and keeping every
other stored item (leaf promotion only moves the promoted item). -/
theorem deleteNode_spec : ∀ (n : Node) (it : Item),
    (getNode n it = none ∧ deleteNode n it = (none, n, 0)) ∨
    (∃ j, getNode n it = some j ∧ (deleteNode n it).1 = some j ∧
      (deleteNode n it).2.2 = 1 ∧
      (deleteNode n it).2.1.item = n.item ∧
      (deleteNode n it).2.1.depth = n.depth ∧
      (deleteNode n it).2.1.remainder = n.remainder ∧
      List.Perm (itemsF n.children) (j :: itemsF (deleteNode n it).2.1.children)) := by
  intro n
  induction n using nodeStrongInd with
  | _ n ih =>
    intro it
    by_cases hok : (search n.children (modulo it.key n.depth)).1 = true
    · have hlt : (search n.children (modulo it.key n.depth)).2.1 < n.children.length :=
        search_ok_lt hok
      have hmem := childAt_mem hlt
      by_cases hk :
          (childAt n (search n.children (modulo it.key n.depth)).2.1).item.key = it.key
      · rw [getNode_found_eq hok hk]
        cases hc : (childAt n (search n.children (modulo it.key n.depth)).2.1).children with
        | nil =>
          rw [deleteNode_leaf hok hk hc]
          refine Or.inr ⟨_, rfl, rfl, rfl, rfl, rfl, rfl, ?_⟩
          simp only [Node.children_mk]
          rw [itemsF_childDelete, itemsF_decomp hlt, itemsN]
          have hc' : (n.children.getD (search n.children (modulo it.key n.depth)).2.1
              default).children = [] := hc
          rw [hc', itemsF_nil]
          exact List.perm_middle
        | cons g gs =>
          rw [deleteNode_promote hok hk hc]
          refine Or.inr ⟨_, rfl, rfl, rfl, rfl, rfl, rfl, ?_⟩
          simp only [Node.children_mk]
          apply itemsF_set_perm_rm hlt
          have hc' : (n.children.getD (search n.children (modulo it.key n.depth)).2.1
              default).children = g :: gs := hc
          rw [itemsN, itemsN, hc']
          simp only [Node.item_mk, Node.children_mk]
          exact (promote_perm g gs).cons _
      · rw [getNode_found_ne hok hk, deleteNode_recurse hok hk]
        rcases ih _ hmem it with ⟨hgn, hdn⟩ | ⟨j, hgj, hd1, hd2, hdi, hdd, hdr, hperm⟩
        · refine Or.inl ⟨hgn, ?_⟩
          rw [hdn]
          simp only []
          rw [childAt, list_set_getD_self _ _ hlt, Node.eta]
        · refine Or.inr ⟨j, hgj, hd1, hd2, rfl, rfl, rfl, ?_⟩
          simp only [Node.children_mk]
          apply itemsF_set_perm_rm hlt
          rw [itemsN, itemsN, hdi]
          exact ((hperm.cons _).trans (List.Perm.swap _ _ _)).trans
            (List.Perm.refl _)
    · have hok' : (search n.children (modulo it.key n.depth)).1 = false :=
        Bool.not_eq_true _ ▸ hok
      rw [getNode_not_found hok', deleteNode_not_found hok']
      exact Or.inl ⟨rfl, rfl⟩

/-! ## The tree invariants

`pinvN`: every key stored in the subtree of a child reduces, modulo the
prime of the parent's depth, to that child's remainder (the spec's
path-consistency invariant, stated locally at every node).
`sinvN`: every node's children array has strictly ascending remainders
(sorted with no duplicates). -/

/-- All items in `c`'s subtree have keys whose residue at depth `d` is `c`'s
remainder. -/
def keysFit (d : Nat) (c : Node) : Bool :=
  (itemsN c).all fun x => x.key % prime d == c.remainder

def pinvF : Nat → List Node → Bool
  | _, [] => true
  | d, Node.mk i cd cr gs :: cs =>
    keysFit d (Node.mk i cd cr gs) && pinvF cd gs && pinvF d cs

/-- Path-consistency invariant at a node. -/
def pinvN (n : Node) : Bool := pinvF n.depth n.children

def sortedRems : List Node → Bool
  | [] => true
  | [_] => true
  | a :: b :: t => decide (a.remainder < b.remainder) && sortedRems (b :: t)

def sinvF : List Node → Bool
  | [] => true
  | Node.mk _ _ _ gs :: cs => (sortedRems gs && sinvF gs) && sinvF cs

/-- Sibling-order invariant at a node. -/
def sinvN (n : Node) : Bool := sortedRems n.children && sinvF n.children

theorem pinvF_cons (d : Nat) (c : Node) (cs : List Node) :
    pinvF d (c :: cs) = (keysFit d c && pinvN c && pinvF d cs) := by
  cases c
  simp [pinvF, pinvN]

theorem pinvF_forall {d : Nat} {cs : List Node} :
    pinvF d cs = true ↔ ∀ c ∈ cs, keysFit d c = true ∧ pinvN c = true := by
  induction cs with
  | nil => simp [pinvF]
  | cons c cs ih =>
    rw [pinvF_cons]
    simp only [Bool.and_eq_true, List.mem_cons]
    constructor
    · rintro ⟨⟨h1, h2⟩, h3⟩ x (rfl | hx)
      · exact ⟨h1, h2⟩
      · exact ih.1 h3 x hx
    · intro h
      exact ⟨⟨(h c (Or.inl rfl)).1, (h c (Or.inl rfl)).2⟩,
        ih.2 fun x hx => h x (Or.inr hx)⟩

theorem sinvF_cons (c : Node) (cs : List Node) :
    sinvF (c :: cs) = (sinvN c && sinvF cs) := by
  cases c
  simp [sinvF, sinvN]

theorem sinvF_forall {cs : List Node} :
    sinvF cs = true ↔ ∀ c ∈ cs, sinvN c = true := by
  induction cs with
  | nil => simp [sinvF]
  | cons c cs ih =>
    rw [sinvF_cons]
    simp only [Bool.and_eq_true, List.mem_cons]
    constructor
    · rintro ⟨h1, h2⟩ x (rfl | hx)
      · exact h1
      · exact ih.1 h2 x hx
    · intro h
      exact ⟨h c (Or.inl rfl), ih.2 fun x hx => h x (Or.inr hx)⟩

@[simp] theorem remAt_cons_zero (a : Node) (l : List Node) :
    remAt (a :: l) 0 = a.remainder := rfl

@[simp] theorem remAt_cons_succ (a : Node) (l : List Node) (j : Nat) :
    remAt (a :: l) (j + 1) = remAt l j := rfl

theorem sortedAt_cons {a : Node} {l : List Node} (ha : ∀ j, j < l.length →
    a.remainder < remAt l j) (hl : SortedAt l) : SortedAt (a :: l) := by
  intro i j hij hj
  cases j with
  | zero => omega
  | succ j =>
    cases i with
    | zero =>
      rw [remAt_cons_zero, remAt_cons_succ]
      exact ha j (by simpa using hj)
    | succ i =>
      rw [remAt_cons_succ, remAt_cons_succ]
      exact hl i j (by omega) (by simpa using hj)

theorem sortedAt_of_cons {a : Node} {l : List Node} (h : SortedAt (a :: l)) :
    SortedAt l := by
  intro i j hij hj
  have := h (i + 1) (j + 1) (by omega) (by simpa using Nat.succ_lt_succ hj)
  simpa using this

theorem sortedAt_cons_head {a : Node} {l : List Node} (h : SortedAt (a :: l)) :
    ∀ j, j < l.length → a.remainder < remAt l j := by
  intro j hj
  have := h 0 (j + 1) (by omega) (by simpa using Nat.succ_lt_succ hj)
  simpa using this

theorem sortedRems_iff_sortedAt : ∀ l : List Node, sortedRems l = true ↔ SortedAt l := by
  intro l
  induction l with
  | nil =>
    simp only [sortedRems]
    constructor
    · intro _ i j _ hj
      simp at hj
    · intro _
      trivial
  | cons a t ih =>
    cases t with
    | nil =>
      simp only [sortedRems]
      constructor
      · intro _ i j hij hj
        simp only [List.length_cons, List.length_nil] at hj
        omega
      · intro _
        trivial
    | cons b t2 =>
      rw [sortedRems]
      simp only [Bool.and_eq_true, decide_eq_true_eq]
      constructor
      · rintro ⟨hab, hrest⟩
        have hS := ih.1 hrest
        apply sortedAt_cons _ hS
        intro j hj
        cases j with
        | zero => exact hab
        | succ j =>
          exact lt_trans hab (hS 0 (j + 1) (by omega) hj)
      · intro h
        refine ⟨?_, ih.2 (sortedAt_of_cons h)⟩
        have := h 0 1 (by omega) (by simp)
        simpa using this

theorem sortedAt_iff_pairwise (l : List Node) :
    SortedAt l ↔ l.Pairwise (fun a b => a.remainder < b.remainder) := by
  rw [List.pairwise_iff_getElem]
  constructor
  · intro h i j hi hj hij
    have := h i j hij hj
    rwa [remAt, remAt, List.getD_eq_getElem _ _ hi, List.getD_eq_getElem _ _ hj] at this
  · intro h i j hij hj
    have hi : i < l.length := lt_trans hij hj
    have := h i j hi hj hij
    rwa [remAt, remAt, List.getD_eq_getElem _ _ hi, List.getD_eq_getElem _ _ hj]

theorem childDelete_sublist (l : List Node) (i : Nat) :
    List.Sublist (childDelete l i) l := by
  rw [childDelete]
  conv_rhs => rw [show l = l.take i ++ l.drop i from (List.take_append_drop _ _).symm]
  exact List.Sublist.append (List.Sublist.refl _) (List.drop_sublist_drop_left l (by omega))

theorem sortedAt_childDelete {l : List Node} (i : Nat) (hs : SortedAt l) :
    SortedAt (childDelete l i) := by
  rw [sortedAt_iff_pairwise] at hs ⊢
  exact hs.sublist (childDelete_sublist l i)

theorem remAt_set {l : List Node} {i : Nat} (c : Node) (hi : i < l.length) (j : Nat) :
    remAt (l.set i c) j = if i = j then c.remainder else remAt l j := by
  by_cases hj : j < l.length
  · rw [remAt, remAt, List.getD_eq_getElem _ _ (by simpa using hj),
      List.getD_eq_getElem _ _ hj, List.getElem_set]
    split <;> rfl
  · rw [if_neg (by omega), remAt, remAt, List.getD_eq_default _ _ (by simpa using hj),
      List.getD_eq_default _ _ (by omega)]

theorem sortedAt_set {l : List Node} {i : Nat} {c : Node} (hi : i < l.length)
    (hrem : c.remainder = remAt l i) (hs : SortedAt l) : SortedAt (l.set i c) := by
  intro a b hab hb
  rw [List.length_set] at hb
  rw [remAt_set c hi a, remAt_set c hi b]
  split
  · next h =>
    subst h
    rw [if_neg (by omega), hrem]
    exact hs i b hab hb
  · split
    · next h =>
      subst h
      rw [hrem]
      exact hs a i hab hb
    · exact hs a b hab hb

theorem sortedAt_append_last {l : List Node} {c : Node} (hs : SortedAt l)
    (hlt : ∀ j, j < l.length → remAt l j < c.remainder) : SortedAt (l ++ [c]) := by
  intro i j hij hj
  simp only [List.length_append, List.length_cons, List.length_nil] at hj
  have hil : i < l.length := by omega
  rcases Nat.lt_or_ge j l.length with hjl | hjl
  · rw [remAt, remAt, List.getD_append _ _ _ _ hil, List.getD_append _ _ _ _ hjl]
    exact hs i j hij hjl
  · have hj' : j = l.length := by omega
    subst hj'
    rw [remAt, remAt, List.getD_append _ _ _ _ hil, List.getD_append_right _ _ _ _ hjl]
    simp only [Nat.sub_self, List.getD_cons_zero]
    exact hlt i hil

theorem length_childInsert {l : List Node} {i : Nat} (c : Node) (hi : i ≤ l.length) :
    (childInsert l i c).length = l.length + 1 := by
  simp [childInsert]
  omega

theorem remAt_childInsert {l : List Node} {i : Nat} (c : Node) (hi : i ≤ l.length) (j : Nat)
    (hj : j < l.length + 1) :
    remAt (childInsert l i c) j =
      if j < i then remAt l j else if j = i then c.remainder else remAt l (j - 1) := by
  have hlen : (l.take i).length = i := by
    rw [List.length_take]
    omega
  rw [childInsert]
  rcases Nat.lt_trichotomy j i with h | h | h
  · rw [if_pos h, remAt, remAt, List.getD_append _ _ _ _ (by rw [hlen]; omega)]
    rw [List.getD_eq_getElem _ _ (by rw [hlen]; omega), List.getD_eq_getElem _ _ (by omega)]
    simp
  · subst h
    rw [if_neg (by omega), if_pos rfl, remAt,
      List.getD_append_right _ _ _ _ (by rw [hlen])]
    rw [hlen, Nat.sub_self, List.getD_cons_zero]
  · rw [if_neg (by omega), if_neg (by omega), remAt,
      List.getD_append_right _ _ _ _ (by rw [hlen]; omega)]
    rw [hlen]
    rw [show j - i = (j - i - 1) + 1 from by omega]
    rw [List.getD_cons_succ]
    rw [remAt, List.getD_eq_getElem _ _ (by rw [List.length_drop]; omega),
      List.getD_eq_getElem _ _ (by omega)]
    simp only [List.getElem_drop]
    simp only [show i + (j - i - 1) = j - 1 from by omega]

theorem putNode_frame (n : Node) (it : Item) :
    (putNode n it).2.1.item = n.item ∧ (putNode n it).2.1.depth = n.depth ∧
      (putNode n it).2.1.remainder = n.remainder := by
  rcases putNode_spec n it with ⟨j, _, hp⟩ | ⟨_, hp⟩ | ⟨_, _, _, h1, h2, h3, _⟩
  · rw [hp]
    exact ⟨rfl, rfl, rfl⟩
  · rw [hp]
    exact ⟨rfl, rfl, rfl⟩
  · exact ⟨h1, h2, h3⟩

theorem deleteNode_frame (n : Node) (it : Item) :
    (deleteNode n it).2.1.item = n.item ∧ (deleteNode n it).2.1.depth = n.depth ∧
      (deleteNode n it).2.1.remainder = n.remainder := by
  rcases deleteNode_spec n it with ⟨_, hp⟩ | ⟨j, _, _, _, h1, h2, h3, _⟩
  · rw [hp]
    exact ⟨rfl, rfl, rfl⟩
  · exact ⟨h1, h2, h3⟩

theorem putNode_items_sub (n : Node) (it : Item) :
    ∀ x ∈ itemsF (putNode n it).2.1.children, x ∈ it :: itemsF n.children := by
  rcases putNode_spec n it with ⟨j, _, hp⟩ | ⟨_, hp⟩ | ⟨_, _, _, _, _, _, hperm⟩
  · rw [hp]
    exact fun x hx => List.mem_cons_of_mem _ hx
  · rw [hp]
    exact fun x hx => List.mem_cons_of_mem _ hx
  · exact fun x hx => hperm.mem_iff.1 hx

theorem deleteNode_items_sub (n : Node) (it : Item) :
    ∀ x ∈ itemsF (deleteNode n it).2.1.children, x ∈ itemsF n.children := by
  rcases deleteNode_spec n it with ⟨_, hp⟩ | ⟨j, _, _, _, _, _, _, hperm⟩
  · rw [hp]
    exact fun x hx => hx
  · exact fun x hx => hperm.symm.mem_iff.1 (List.mem_cons_of_mem _ hx)

theorem promote_items_sub (g : Node) (gs : List Node) :
    ∀ x ∈ itemsF (promote g gs).2, x ∈ itemsF (g :: gs) := fun x hx =>
  (promote_perm g gs).symm.mem_iff.1 (List.mem_cons_of_mem _ hx)

theorem promote_item_mem (g : Node) (gs : List Node) :
    (promote g gs).1 ∈ itemsF (g :: gs) :=
  (promote_perm g gs).symm.mem_iff.1 (List.mem_cons_self _ _)

theorem itemsF_mem_exists {x : Item} : ∀ {cs : List Node}, x ∈ itemsF cs →
    ∃ c ∈ cs, x ∈ itemsN c := by
  intro cs
  induction cs with
  | nil => simp
  | cons c cs ih =>
    rw [itemsF_cons]
    intro hx
    rcases List.mem_append.1 hx with h | h
    · exact ⟨c, List.mem_cons_self _ _, h⟩
    · obtain ⟨d, hd, hxd⟩ := ih h
      exact ⟨d, List.mem_cons_of_mem _ hd, hxd⟩

theorem sortedRems_tail {a : Node} {t : List Node} (h : sortedRems (a :: t) = true) :
    sortedRems t = true := by
  cases t with
  | nil => simp [sortedRems]
  | cons b t2 =>
    rw [sortedRems] at h
    simp only [Bool.and_eq_true] at h
    exact h.2

theorem sortedRems_congr_head {a b : Node} (h : a.remainder = b.remainder)
    (t : List Node) : sortedRems (a :: t) = sortedRems (b :: t) := by
  cases t with
  | nil => simp [sortedRems]
  | cons c t2 =>
    rw [sortedRems, sortedRems, h]

theorem keysFit_of_sub {d : Nat} {c c' : Node} (hrem : c'.remainder = c.remainder)
    (hsub : ∀ x ∈ itemsN c', x ∈ itemsN c) (h : keysFit d c = true) :
    keysFit d c' = true := by
  rw [keysFit, List.all_eq_true] at h ⊢
  intro x hx
  have := h x (hsub x hx)
  rw [beq_iff_eq] at this ⊢
  rw [hrem]
  exact this

/-- Leaf promotion preserves the path invariant below the promoted branch. -/
theorem promote_pinv : ∀ (g : Node) (gs : List Node) (d : Nat),
    pinvF d (g :: gs) = true → pinvF d (promote g gs).2 = true := by
  intro g
  induction g using nodeStrongInd with
  | _ g ih =>
    intro gs d h
    cases g with
    | mk i gd gr gcs =>
      rw [pinvF_cons] at h
      simp only [Bool.and_eq_true] at h
      obtain ⟨⟨hfit, hpin⟩, hrest⟩ := h
      cases gcs with
      | nil =>
        rw [promote]
        exact hrest
      | cons g2 gs2 =>
        rw [promote]
        simp only []
        rw [pinvF_cons]
        simp only [Bool.and_eq_true]
        refine ⟨⟨?_, ?_⟩, hrest⟩
        · refine keysFit_of_sub
            (show (Node.mk i gd gr (promote g2 gs2).2).remainder =
              (Node.mk i gd gr (g2 :: gs2)).remainder from rfl) ?_ hfit
          intro x hx
          rcases List.mem_cons.1 hx with rfl | hx
          · exact List.mem_cons_self _ _
          · simp only [Node.children_mk] at hx
            exact List.mem_cons_of_mem _ (promote_items_sub g2 gs2 x hx)
        · have hpin' : pinvF gd (g2 :: gs2) = true := hpin
          exact ih g2 (by simp) gs2 gd hpin'

/-- Leaf promotion preserves the sibling-order invariant below the promoted
branch. -/
theorem promote_sinv : ∀ (g : Node) (gs : List Node),
    sortedRems (g :: gs) = true → sinvF (g :: gs) = true →
    sortedRems (promote g gs).2 = true ∧ sinvF (promote g gs).2 = true := by
  intro g
  induction g using nodeStrongInd with
  | _ g ih =>
    intro gs hsort hsf
    rw [sinvF_cons] at hsf
    simp only [Bool.and_eq_true] at hsf
    obtain ⟨hsN, hrest⟩ := hsf
    cases g with
    | mk i gd gr gcs =>
      cases gcs with
      | nil =>
        rw [promote]
        exact ⟨sortedRems_tail hsort, hrest⟩
      | cons g2 gs2 =>
        rw [promote]
        simp only []
        have hsN2 : (sortedRems (g2 :: gs2) && sinvF (g2 :: gs2)) = true := hsN
        simp only [Bool.and_eq_true] at hsN2
        have hrec := ih g2 (by simp) gs2 hsN2.1 hsN2.2
        constructor
        · rw [sortedRems_congr_head
            (show (Node.mk i gd gr (promote g2 gs2).2).remainder =
              (Node.mk i gd gr (g2 :: gs2)).remainder from rfl) gs]
          exact hsort
        · rw [sinvF_cons]
          simp only [Bool.and_eq_true]
          refine ⟨?_, hrest⟩
          rw [sinvN]
          simp only [Node.children_mk, Bool.and_eq_true]
          exact ⟨hrec.1, hrec.2⟩

theorem mem_childInsert {l : List Node} {i : Nat} {c x : Node}
    (h : x ∈ childInsert l i c) : x = c ∨ x ∈ l := by
  rw [childInsert] at h
  rcases List.mem_append.1 h with h | h
  · exact Or.inr ((List.take_sublist _ _).subset h)
  · rcases List.mem_cons.1 h with rfl | h
    · exact Or.inl rfl
    · exact Or.inr ((List.drop_sublist _ _).subset h)

theorem mem_childDelete {l : List Node} {i : Nat} {x : Node}
    (h : x ∈ childDelete l i) : x ∈ l :=
  (childDelete_sublist l i).subset h

theorem keysFit_elem {d : Nat} {c : Node} (h : keysFit d c = true) {x : Item}
    (hx : x ∈ itemsN c) : x.key % prime d = c.remainder := by
  rw [keysFit, List.all_eq_true] at h
  have := h x hx
  rwa [beq_iff_eq] at this

theorem search_not_found_facts {s : List Node} {r : Nat} (hne : 0 < s.length)
    (hs : SortedAt s) (h : (search s r).1 = false) :
    (search s r).2.1 < s.length ∧ remAt s (search s r).2.1 ≠ r ∧
    (∀ j, j < (search s r).2.1 → remAt s j < r) ∧
    (r ≤ remAt s (search s r).2.1 ∨ (search s r).2.1 = s.length - 1) := by
  match s, hne with
  | c :: cs, _ => exact search_not_found_spec hs h

theorem search_right_val {s : List Node} (hne : 0 < s.length) (r : Nat) :
    (search s r).2.2 = ((search s r).2.1 : Int) := by
  match s, hne with
  | c :: cs, _ => exact search_right_eq c cs r

/-- Operation `put` preserves the path-consistency invariant. -/
theorem pinv_putNode : ∀ (n : Node) (it : Item), pinvN n = true →
    pinvN (putNode n it).2.1 = true := by
  intro n
  induction n using nodeStrongInd with
  | _ n ih =>
    intro it h
    have hOld : ∀ c ∈ n.children, keysFit n.depth c = true ∧ pinvN c = true := by
      simp only [pinvN] at h
      exact pinvF_forall.1 h
    by_cases hok : (search n.children (modulo it.key n.depth)).1 = true
    · have hlt : (search n.children (modulo it.key n.depth)).2.1 < n.children.length :=
        search_ok_lt hok
      have hmem := childAt_mem hlt
      by_cases hk :
          (childAt n (search n.children (modulo it.key n.depth)).2.1).item.key = it.key
      · rw [putNode_conflict hok hk]
        exact h
      · rw [putNode_recurse hok hk]
        simp only [pinvN, Node.depth_mk, Node.children_mk]
        rw [pinvF_forall]
        intro c hc
        rcases List.mem_or_eq_of_mem_set hc with hcold | rfl
        · exact hOld c hcold
        · have hframe := putNode_frame
            (childAt n (search n.children (modulo it.key n.depth)).2.1) it
          constructor
          · rw [keysFit, List.all_eq_true]
            intro x hx
            rw [beq_iff_eq, hframe.2.2]
            rcases List.mem_cons.1 hx with rfl | hx
            · rw [hframe.1]
              exact keysFit_elem (hOld _ hmem).1 (List.mem_cons_self _ _)
            · rcases List.mem_cons.1 (putNode_items_sub _ it x hx) with hxit | hx2
              · rw [hxit]
                have hr := search_found_rem hok
                rw [show (childAt n (search n.children
                    (modulo it.key n.depth)).2.1).remainder =
                  remAt n.children (search n.children (modulo it.key n.depth)).2.1
                  from rfl, hr]
                rfl
              · exact keysFit_elem (hOld _ hmem).1 (List.mem_cons_of_mem _ hx2)
          · exact ih _ hmem it (hOld _ hmem).2
    · have hok' : (search n.children (modulo it.key n.depth)).1 = false :=
        Bool.not_eq_true _ ▸ hok
      by_cases hd : n.depth ≥ primes.length - 1
      · rw [putNode_overflow hok' hd]
        exact h
      · have hnew_fit : keysFit n.depth
            (newNode it (n.depth + 1) (modulo it.key n.depth)) = true := by
          rw [keysFit, newNode]
          simp [itemsN, modulo]
        have hnew_pinv : pinvN (newNode it (n.depth + 1) (modulo it.key n.depth)) = true := by
          rw [newNode, pinvN]
          simp [pinvF]
        by_cases hc : n.children.length = 0 ∨
          ((search n.children (modulo it.key n.depth)).2.2 = (n.children.length : Int) - 1 ∧
            (n.children.getD (search n.children (modulo it.key n.depth)).2.2.toNat
              default).remainder ≤ modulo it.key n.depth)
        · rw [putNode_append hok' hd hc]
          simp only [pinvN, Node.depth_mk, Node.children_mk]
          rw [pinvF_forall]
          intro c hcm
          rcases List.mem_append.1 hcm with hcm | hcm
          · exact hOld c hcm
          · rcases List.mem_cons.1 hcm with rfl | hcm
            · exact ⟨hnew_fit, hnew_pinv⟩
            · cases hcm
        · rw [putNode_insert hok' hd hc]
          simp only [pinvN, Node.depth_mk, Node.children_mk]
          rw [pinvF_forall]
          intro c hcm
          rcases mem_childInsert hcm with rfl | hcm
          · exact ⟨hnew_fit, hnew_pinv⟩
          · exact hOld c hcm

/-- Operation `delete` preserves the path-consistency invariant, including through
leaf promotion. -/
theorem pinv_deleteNode : ∀ (n : Node) (it : Item), pinvN n = true →
    pinvN (deleteNode n it).2.1 = true := by
  intro n
  induction n using nodeStrongInd with
  | _ n ih =>
    intro it h
    have hOld : ∀ c ∈ n.children, keysFit n.depth c = true ∧ pinvN c = true := by
      simp only [pinvN] at h
      exact pinvF_forall.1 h
    by_cases hok : (search n.children (modulo it.key n.depth)).1 = true
    · have hlt : (search n.children (modulo it.key n.depth)).2.1 < n.children.length :=
        search_ok_lt hok
      have hmem := childAt_mem hlt
      by_cases hk :
          (childAt n (search n.children (modulo it.key n.depth)).2.1).item.key = it.key
      · cases hcc : (childAt n (search n.children (modulo it.key n.depth)).2.1).children with
        | nil =>
          rw [deleteNode_leaf hok hk hcc]
          simp only [pinvN, Node.depth_mk, Node.children_mk]
          rw [pinvF_forall]
          intro c hcm
          exact hOld c (mem_childDelete hcm)
        | cons g gs =>
          rw [deleteNode_promote hok hk hcc]
          simp only [pinvN, Node.depth_mk, Node.children_mk]
          rw [pinvF_forall]
          intro c hcm
          rcases List.mem_or_eq_of_mem_set hcm with hcold | rfl
          · exact hOld c hcold
          · constructor
            · refine keysFit_of_sub
                (show (Node.mk (promote g gs).1
                    (childAt n (search n.children (modulo it.key n.depth)).2.1).depth
                    (childAt n (search n.children (modulo it.key n.depth)).2.1).remainder
                    (promote g gs).2).remainder =
                  (childAt n (search n.children (modulo it.key n.depth)).2.1).remainder
                  from rfl) ?_ (hOld _ hmem).1
              intro x hx
              have hgoal : x ∈ (childAt n (search n.children
                    (modulo it.key n.depth)).2.1).item :: itemsF (g :: gs) →
                  x ∈ itemsN (childAt n (search n.children (modulo it.key n.depth)).2.1) := by
                intro hx2
                show x ∈ (childAt n (search n.children (modulo it.key n.depth)).2.1).item ::
                  itemsF (childAt n (search n.children (modulo it.key n.depth)).2.1).children
                rw [hcc]
                exact hx2
              apply hgoal
              rcases List.mem_cons.1 hx with hxi | hx
              · rw [hxi]
                exact List.mem_cons_of_mem _ (promote_item_mem g gs)
              · simp only [Node.children_mk] at hx
                exact List.mem_cons_of_mem _ (promote_items_sub g gs x hx)
            · rw [pinvN]
              simp only [Node.depth_mk, Node.children_mk]
              apply promote_pinv
              have := (hOld _ hmem).2
              rw [pinvN, hcc] at this
              exact this
      · rw [deleteNode_recurse hok hk]
        simp only [pinvN, Node.depth_mk, Node.children_mk]
        rw [pinvF_forall]
        intro c hc
        rcases List.mem_or_eq_of_mem_set hc with hcold | rfl
        · exact hOld c hcold
        · have hframe := deleteNode_frame
            (childAt n (search n.children (modulo it.key n.depth)).2.1) it
          constructor
          · refine keysFit_of_sub hframe.2.2 ?_ (hOld _ hmem).1
            intro x hx
            rcases List.mem_cons.1 hx with rfl | hx
            · rw [hframe.1]
              exact List.mem_cons_self _ _
            · exact List.mem_cons_of_mem _ (deleteNode_items_sub _ it x hx)
          · exact ih _ hmem it (hOld _ hmem).2
    · have hok' : (search n.children (modulo it.key n.depth)).1 = false :=
        Bool.not_eq_true _ ▸ hok
      rw [deleteNode_not_found hok']
      exact h

theorem sortedAt_childInsert {l : List Node} {i : Nat} {c : Node} (hi : i ≤ l.length)
    (hs : SortedAt l) (hbelow : ∀ j, j < i → remAt l j < c.remainder)
    (habove : ∀ j, i ≤ j → j < l.length → c.remainder < remAt l j) :
    SortedAt (childInsert l i c) := by
  intro a b hab hb
  rw [length_childInsert c hi] at hb
  rw [remAt_childInsert c hi a (by omega), remAt_childInsert c hi b hb]
  have hbi : i ≤ l.length := hi
  split
  · next ha1 =>
    split
    · next hb1 => exact hs a b hab (by omega)
    · split
      · next hb2 => exact hbelow a ha1
      · next hb1 hb2 => exact hs a (b - 1) (by omega) (by omega)
  · next ha1 =>
    split
    · next ha2 =>
      subst ha2
      split
      · next hb1 => omega
      · split
        · next hb2 => omega
        · next hb1 hb2 => exact habove (b - 1) (by omega) (by omega)
    · next ha2 =>
      split
      · next hb1 => omega
      · split
        · next hb2 => omega
        · next hb1 hb2 => exact hs (a - 1) (b - 1) (by omega) (by omega)


/-- Operation `put` preserves the sibling-order invariant: the binary search's final
position is exactly the sort-preserving insertion point. -/
theorem sinv_putNode : ∀ (n : Node) (it : Item), sinvN n = true →
    sinvN (putNode n it).2.1 = true := by
  intro n
  induction n using nodeStrongInd with
  | _ n ih =>
    intro it h
    have hparts : sortedRems n.children = true ∧ sinvF n.children = true := by
      rw [sinvN] at h
      simpa [Bool.and_eq_true] using h
    obtain ⟨hsort, hsf⟩ := hparts
    have hSA : SortedAt n.children := (sortedRems_iff_sortedAt _).1 hsort
    have hOld : ∀ c ∈ n.children, sinvN c = true := sinvF_forall.1 hsf
    by_cases hok : (search n.children (modulo it.key n.depth)).1 = true
    · have hlt : (search n.children (modulo it.key n.depth)).2.1 < n.children.length :=
        search_ok_lt hok
      have hmem := childAt_mem hlt
      by_cases hk :
          (childAt n (search n.children (modulo it.key n.depth)).2.1).item.key = it.key
      · rw [putNode_conflict hok hk]
        exact h
      · rw [putNode_recurse hok hk]
        rw [sinvN]
        simp only [Node.children_mk, Bool.and_eq_true]
        refine ⟨?_, ?_⟩
        · apply (sortedRems_iff_sortedAt _).2
          refine sortedAt_set hlt ?_ hSA
          exact (putNode_frame _ it).2.2
        · apply sinvF_forall.2
          intro c hcm
          rcases List.mem_or_eq_of_mem_set hcm with hcold | rfl
          · exact hOld c hcold
          · exact ih _ hmem it (hOld _ hmem)
    · have hok' : (search n.children (modulo it.key n.depth)).1 = false :=
        Bool.not_eq_true _ ▸ hok
      by_cases hd : n.depth ≥ primes.length - 1
      · rw [putNode_overflow hok' hd]
        exact h
      · have hnew_sinv : sinvN (newNode it (n.depth + 1) (modulo it.key n.depth)) = true := by
          rw [newNode, sinvN]
          simp [sortedRems, sinvF]
        by_cases hc : n.children.length = 0 ∨
          ((search n.children (modulo it.key n.depth)).2.2 = (n.children.length : Int) - 1 ∧
            (n.children.getD (search n.children (modulo it.key n.depth)).2.2.toNat
              default).remainder ≤ modulo it.key n.depth)
        · rw [putNode_append hok' hd hc]
          rw [sinvN]
          simp only [Node.children_mk, Bool.and_eq_true]
          refine ⟨?_, ?_⟩
          · apply (sortedRems_iff_sortedAt _).2
            apply sortedAt_append_last hSA
            intro j hj
            rcases hc with hlen0 | ⟨hrt, hrle⟩
            · omega
            · have hne : 0 < n.children.length := by omega
              have hfacts := search_not_found_facts hne hSA hok'
              have hrv := search_right_val hne (modulo it.key n.depth)
              have htn : (search n.children (modulo it.key n.depth)).2.2.toNat =
                  (search n.children (modulo it.key n.depth)).2.1 := by
                rw [hrv]
                simp
              rw [htn] at hrle
              have hltr : remAt n.children (search n.children (modulo it.key n.depth)).2.1 <
                  modulo it.key n.depth :=
                lt_of_le_of_ne hrle hfacts.2.1
              show remAt n.children j < (newNode it (n.depth + 1)
                (modulo it.key n.depth)).remainder
              rw [newNode, Node.remainder_mk]
              have hfin : (search n.children (modulo it.key n.depth)).2.1 =
                  n.children.length - 1 := by
                rw [hrv] at hrt
                omega
              rcases Nat.lt_or_ge j (search n.children (modulo it.key n.depth)).2.1 with
                hj2 | hj2
              · exact hfacts.2.2.1 j hj2
              · have hjf : j = (search n.children (modulo it.key n.depth)).2.1 := by omega
                rw [hjf]
                exact hltr
          · apply sinvF_forall.2
            intro c hcm
            rcases List.mem_append.1 hcm with hcm | hcm
            · exact hOld c hcm
            · rcases List.mem_cons.1 hcm with rfl | hcm
              · exact hnew_sinv
              · cases hcm
        · rw [putNode_insert hok' hd hc]
          have hne : 0 < n.children.length := by
            rcases Nat.eq_zero_or_pos n.children.length with h0 | h0
            · exact absurd (Or.inl h0) hc
            · exact h0
          have hfacts := search_not_found_facts hne hSA hok'
          have hrv := search_right_val hne (modulo it.key n.depth)
          have htn : (search n.children (modulo it.key n.depth)).2.2.toNat =
              (search n.children (modulo it.key n.depth)).2.1 := by
            rw [hrv]
            simp
          have hrlt : modulo it.key n.depth <
              remAt n.children (search n.children (modulo it.key n.depth)).2.1 := by
            rcases hfacts.2.2.2 with hge | hlast
            · exact lt_of_le_of_ne hge (Ne.symm hfacts.2.1)
            · have hX : (search n.children (modulo it.key n.depth)).2.2 =
                  (n.children.length : Int) - 1 := by
                rw [hrv, hlast]
                omega
              have hY : ¬ ((n.children.getD
                  (search n.children (modulo it.key n.depth)).2.2.toNat
                    default).remainder ≤ modulo it.key n.depth) :=
                fun hy => hc (Or.inr ⟨hX, hy⟩)
              rw [htn] at hY
              exact lt_of_not_ge hY
          rw [sinvN]
          simp only [Node.children_mk, Bool.and_eq_true]
          rw [htn]
          refine ⟨?_, ?_⟩
          · apply (sortedRems_iff_sortedAt _).2
            refine sortedAt_childInsert (le_of_lt hfacts.1) hSA ?_ ?_
            · intro j hj
              show remAt n.children j < (newNode it (n.depth + 1)
                (modulo it.key n.depth)).remainder
              rw [newNode, Node.remainder_mk]
              exact hfacts.2.2.1 j hj
            · intro j hji hjl
              show (newNode it (n.depth + 1) (modulo it.key n.depth)).remainder <
                remAt n.children j
              rw [newNode, Node.remainder_mk]
              rcases Nat.eq_or_lt_of_le hji with hje | hjgt
              · rw [← hje]
                exact hrlt
              · exact lt_trans hrlt
                  (hSA (search n.children (modulo it.key n.depth)).2.1 j hjgt hjl)
          · apply sinvF_forall.2
            intro c hcm
            rcases mem_childInsert hcm with rfl | hcm
            · exact hnew_sinv
            · exact hOld c hcm

/-- Operation `delete` preserves the sibling-order invariant: direct removal shrinks a
sorted array, and the promotion's replacement keeps the deleted node's
remainder. -/
theorem sinv_deleteNode : ∀ (n : Node) (it : Item), sinvN n = true →
    sinvN (deleteNode n it).2.1 = true := by
  intro n
  induction n using nodeStrongInd with
  | _ n ih =>
    intro it h
    have hparts : sortedRems n.children = true ∧ sinvF n.children = true := by
      rw [sinvN] at h
      simpa [Bool.and_eq_true] using h
    obtain ⟨hsort, hsf⟩ := hparts
    have hSA : SortedAt n.children := (sortedRems_iff_sortedAt _).1 hsort
    have hOld : ∀ c ∈ n.children, sinvN c = true := sinvF_forall.1 hsf
    by_cases hok : (search n.children (modulo it.key n.depth)).1 = true
    · have hlt : (search n.children (modulo it.key n.depth)).2.1 < n.children.length :=
        search_ok_lt hok
      have hmem := childAt_mem hlt
      by_cases hk :
          (childAt n (search n.children (modulo it.key n.depth)).2.1).item.key = it.key
      · cases hcc : (childAt n (search n.children (modulo it.key n.depth)).2.1).children with
        | nil =>
          rw [deleteNode_leaf hok hk hcc]
          rw [sinvN]
          simp only [Node.children_mk, Bool.and_eq_true]
          refine ⟨?_, ?_⟩
          · exact (sortedRems_iff_sortedAt _).2 (sortedAt_childDelete _ hSA)
          · apply sinvF_forall.2
            intro c hcm
            exact hOld c (mem_childDelete hcm)
        | cons g gs =>
          rw [deleteNode_promote hok hk hcc]
          rw [sinvN]
          simp only [Node.children_mk, Bool.and_eq_true]
          have hchild := hOld _ hmem
          rw [sinvN, hcc] at hchild
          simp only [Bool.and_eq_true] at hchild
          have hprom := promote_sinv g gs hchild.1 hchild.2
          refine ⟨?_, ?_⟩
          · apply (sortedRems_iff_sortedAt _).2
            refine sortedAt_set hlt ?_ hSA
            rfl
          · apply sinvF_forall.2
            intro c hcm
            rcases List.mem_or_eq_of_mem_set hcm with hcold | rfl
            · exact hOld c hcold
            · rw [sinvN]
              simp only [Node.children_mk, Bool.and_eq_true]
              exact ⟨hprom.1, hprom.2⟩
      · rw [deleteNode_recurse hok hk]
        rw [sinvN]
        simp only [Node.children_mk, Bool.and_eq_true]
        refine ⟨?_, ?_⟩
        · apply (sortedRems_iff_sortedAt _).2
          refine sortedAt_set hlt ?_ hSA
          exact (deleteNode_frame _ it).2.2
        · apply sinvF_forall.2
          intro c hcm
          rcases List.mem_or_eq_of_mem_set hcm with hcold | rfl
          · exact hOld c hcold
          · exact ih _ hmem it (hOld _ hmem)
    · have hok' : (search n.children (modulo it.key n.depth)).1 = false :=
        Bool.not_eq_true _ ▸ hok
      rw [deleteNode_not_found hok']
      exact h

/-- Under the path and sibling invariants, `get` finds every stored key:
recomputing the residues retraces exactly the path used to place the item. -/
theorem getNode_complete : ∀ (n : Node) (it : Item), pinvN n = true → sinvN n = true →
    it.key ∈ (itemsF n.children).map Item.key → ∃ j, getNode n it = some j := by
  intro n
  induction n using nodeStrongInd with
  | _ n ih =>
    intro it hp hs hkmem
    obtain ⟨x, hx, hxkey⟩ := List.mem_map.1 hkmem
    obtain ⟨c, hcmem, hxc⟩ := itemsF_mem_exists hx
    obtain ⟨i, hi, hci⟩ := List.mem_iff_getElem.1 hcmem
    have hOldP : ∀ d ∈ n.children, keysFit n.depth d = true ∧ pinvN d = true := by
      simp only [pinvN] at hp
      exact pinvF_forall.1 hp
    have hsparts : sortedRems n.children = true ∧ sinvF n.children = true := by
      rw [sinvN] at hs
      simpa [Bool.and_eq_true] using hs
    have hOldS : ∀ d ∈ n.children, sinvN d = true := sinvF_forall.1 hsparts.2
    have hSA : SortedAt n.children := (sortedRems_iff_sortedAt _).1 hsparts.1
    have hrc : remAt n.children i = modulo it.key n.depth := by
      have h1 := keysFit_elem (hOldP c hcmem).1 hxc
      rw [remAt, List.getD_eq_getElem _ _ hi, hci, ← h1, hxkey]
      rfl
    have hcomp := search_complete hSA hi hrc
    have hchild : childAt n (search n.children (modulo it.key n.depth)).2.1 = c := by
      rw [childAt, hcomp.2, List.getD_eq_getElem _ _ hi, hci]
    by_cases hk :
        (childAt n (search n.children (modulo it.key n.depth)).2.1).item.key = it.key
    · exact ⟨_, getNode_found_eq hcomp.1 hk⟩
    · rw [getNode_found_ne hcomp.1 hk, hchild]
      apply ih c hcmem it (hOldP c hcmem).2 (hOldS c hcmem)
      rcases List.mem_cons.1 hxc with hxe | hxin
      · exact absurd (by rw [hchild, ← hxe, hxkey]) hk
      · exact List.mem_map.2 ⟨x, hxin, hxkey⟩

/-- C4: path-consistency invariant.  `pinvN` states that every reachable
node's item key, reduced modulo the prime of each ancestor's stored depth,
reproduces exactly the remainder recorded on the path to it.  The invariant
is preserved by every `put` and every `delete` (including leaf promotion),
and together with the sibling-order invariant it makes every stored item
findable by `get` recomputing those residues. -/
theorem c4_path_consistency :
    (∀ (n : Node) (it : Item), pinvN n = true → pinvN (putNode n it).2.1 = true) ∧
    (∀ (n : Node) (it : Item), pinvN n = true → pinvN (deleteNode n it).2.1 = true) ∧
    (∀ (n : Node) (it : Item), pinvN n = true → sinvN n = true →
      it.key ∈ (itemsF n.children).map Item.key →
      ∃ j, getNode n it = some j ∧ j ∈ itemsF n.children ∧ j.key = it.key) :=
  ⟨pinv_putNode, pinv_deleteNode, fun n it hp hs hm =>
    match getNode_complete n it hp hs hm with
    | ⟨j, hj⟩ => ⟨j, hj, (getNode_sound n it j hj).1, (getNode_sound n it j hj).2⟩⟩

/-- C8: sibling-array invariant.  `sinvN` states that within every node's
children array the remainders are strictly ascending (hence sorted and
pairwise distinct); it is preserved by every `put` and every `delete`. -/
theorem c8_sibling_order :
    (∀ (n : Node) (it : Item), sinvN n = true → sinvN (putNode n it).2.1 = true) ∧
    (∀ (n : Node) (it : Item), sinvN n = true → sinvN (deleteNode n it).2.1 = true) :=
  ⟨sinv_putNode, sinv_deleteNode⟩

/-- C7: when no node along the computed residue path matches the queried
key (`Get` returns absent), `Delete` returns absent and leaves the whole
tree, in particular `length()`, unchanged. -/
theorem c7_delete_absent (t : HTree) (it : Item) (h : t.Get it = none) :
    t.Delete it = (none, t) := by
  rcases deleteNode_spec t.root it with ⟨hg, hd⟩ | ⟨j, hgj, _⟩
  · cases t with
    | mk r len conf =>
      simp only [HTree.Get] at h
      simp only [HTree.Delete, hd]
      simp
  · rw [HTree.Get] at h
    rw [h] at hgj
    cases hgj

/-- C5: when the key of `it` is already stored in a well-formed tree, `Put`
returns the previously stored item (not the argument), increments
`conflicts()` by exactly 1, and leaves `length()` and the entire node
structure unchanged. -/
theorem c5_put_conflict (t : HTree) (it : Item)
    (hp : pinvN t.root = true) (hs : sinvN t.root = true)
    (hpresent : it.key ∈ (itemsF t.root.children).map Item.key) :
    ∃ j, j ∈ itemsF t.root.children ∧ j.key = it.key ∧
      t.Put it = (some j, ⟨t.root, t.length, t.conflicts + 1⟩) := by
  obtain ⟨j, hj⟩ := getNode_complete t.root it hp hs hpresent
  have hsound := getNode_sound t.root it j hj
  rcases putNode_spec t.root it with ⟨j2, hgj2, hput⟩ | ⟨hgn, _⟩ | ⟨hgn, _⟩
  · rw [hj] at hgj2
    obtain rfl : j = j2 := Option.some.inj hgj2
    refine ⟨j, hsound.1, hsound.2, ?_⟩
    rw [HTree.Put, hput]
    simp
  · rw [hj] at hgn
    cases hgn
  · rw [hj] at hgn
    cases hgn

/-- C6: when the key of `it` is stored in a well-formed tree with no
duplicate keys, `Delete` returns the stored item for that key, decrements
`length()` by exactly 1, and a subsequent `Get` for that key returns
absent. -/
theorem c6_delete_present (t : HTree) (it : Item)
    (hp : pinvN t.root = true) (hs : sinvN t.root = true)
    (hnd : ((itemsF t.root.children).map Item.key).Nodup)
    (hpresent : it.key ∈ (itemsF t.root.children).map Item.key) :
    ∃ j t', j ∈ itemsF t.root.children ∧ j.key = it.key ∧
      t.Delete it = (some j, t') ∧ t'.length = t.length - 1 ∧ t'.Get it = none := by
  obtain ⟨j, hj⟩ := getNode_complete t.root it hp hs hpresent
  have hsound := getNode_sound t.root it j hj
  rcases deleteNode_spec t.root it with ⟨hgn, _⟩ | ⟨j2, hgj2, hd1, hd2, _, _, _, hperm⟩
  · rw [hj] at hgn
    cases hgn
  · rw [hj] at hgj2
    obtain rfl : j = j2 := Option.some.inj hgj2
    refine ⟨j, ⟨(deleteNode t.root it).2.1, t.length - 1, t.conflicts⟩,
      hsound.1, hsound.2, ?_, rfl, ?_⟩
    · rw [HTree.Delete, hd1, hd2]
      simp
    · show getNode (deleteNode t.root it).2.1 it = none
      cases hg2 : getNode (deleteNode t.root it).2.1 it with
      | none => rfl
      | some j3 =>
        exfalso
        have hs3 := getNode_sound _ it j3 hg2
        have hkperm := hperm.map Item.key
        have hnd2 : (j.key :: (itemsF (deleteNode t.root it).2.1.children).map
            Item.key).Nodup := by
          rw [List.map_cons] at hkperm
          exact hkperm.nodup hnd
        have hjnot : j.key ∉ (itemsF (deleteNode t.root it).2.1.children).map Item.key :=
          (List.nodup_cons.1 hnd2).1
        apply hjnot
        have hkeq : j3.key = j.key := by rw [hs3.2, hsound.2]
        exact hkeq ▸ List.mem_map.2 ⟨j3, hs3.1, rfl⟩

/-! ## Concrete witnesses for the invariant and HTree-level theorems -/

/-- The tree the repository's iterator example builds from keys 0..5:
root children 0 and 1 at depth 1, each with two depth-2 children. -/
def wnode : Node := Node.mk ⟨0, 0⟩ 0 0
  [Node.mk ⟨0, 0⟩ 1 0 [Node.mk ⟨4, 4⟩ 2 1 [], Node.mk ⟨2, 2⟩ 2 2 []],
   Node.mk ⟨1, 1⟩ 1 1 [Node.mk ⟨3, 3⟩ 2 0 [], Node.mk ⟨5, 5⟩ 2 2 []]]

theorem c4_path_consistency_witness :
    pinvN (putNode wnode (uitem 6)).2.1 = true ∧
    pinvN (deleteNode wnode (uitem 0)).2.1 = true ∧
    (∃ j, getNode wnode (uitem 3) = some j ∧ j ∈ itemsF wnode.children ∧
      j.key = (uitem 3).key) :=
  ⟨c4_path_consistency.1 wnode (uitem 6)
      (by simp [wnode, pinvN, pinvF, keysFit, itemsN, itemsF, prime, primes]),
    c4_path_consistency.2.1 wnode (uitem 0)
      (by simp [wnode, pinvN, pinvF, keysFit, itemsN, itemsF, prime, primes]),
    c4_path_consistency.2.2 wnode (uitem 3)
      (by simp [wnode, pinvN, pinvF, keysFit, itemsN, itemsF, prime, primes])
      (by simp [wnode, sinvN, sinvF, sortedRems])
      (by simp [wnode, itemsF, uitem])⟩

theorem c8_sibling_order_witness :
    sinvN (putNode wnode (uitem 6)).2.1 = true ∧
    sinvN (deleteNode wnode (uitem 0)).2.1 = true :=
  ⟨c8_sibling_order.1 wnode (uitem 6) (by simp [wnode, sinvN, sinvF, sortedRems]),
    c8_sibling_order.2 wnode (uitem 0) (by simp [wnode, sinvN, sinvF, sortedRems])⟩

theorem c7_delete_absent_witness :
    HTree.Delete New (Item.mk 5 5) = (none, New) :=
  c7_delete_absent New ⟨5, 5⟩ (by simp [New, HTree.Get, getNode, search])

theorem c5_put_conflict_witness :
    ∃ j, j ∈ itemsF (HTree.mk wnode 6 0).root.children ∧ j.key = (Item.mk 3 99).key ∧
      HTree.Put (HTree.mk wnode 6 0) (Item.mk 3 99) =
        (some j, ⟨(HTree.mk wnode 6 0).root, (HTree.mk wnode 6 0).length,
          (HTree.mk wnode 6 0).conflicts + 1⟩) :=
  c5_put_conflict (HTree.mk wnode 6 0) (Item.mk 3 99)
    (by simp [wnode, pinvN, pinvF, keysFit, itemsN, itemsF, prime, primes])
    (by simp [wnode, sinvN, sinvF, sortedRems])
    (by simp [wnode, itemsF])

/-! ## C3: the delete-with-children (leaf promotion) contract

`firstLeaf` and `detachLeaf` are written from the claim's words — "descend
by always following the first (lowest-remainder) child to a leaf" and
"detach that leaf from its immediate parent" — and the refinement theorem
shows the code's fused promotion loop implements exactly that. -/

/-- The node reached from `n` by repeatedly following the first child; `n`
itself when it has no children. -/
def firstLeaf : Node → Node
  | Node.mk i d r [] => Node.mk i d r []
  | Node.mk _ _ _ (c :: _) => firstLeaf c

/-- Remove the first-child-chain leaf from its immediate parent's children
array, leaving every other node in place. -/
def detachLeaf : Node → Node
  | Node.mk i d r [] => Node.mk i d r []
  | Node.mk i d r (c :: cs) =>
    if c.children.isEmpty then Node.mk i d r cs
    else Node.mk i d r (detachLeaf c :: cs)

theorem firstLeaf_cons (i : Item) (d r : Nat) (g : Node) (gs : List Node) :
    firstLeaf (Node.mk i d r (g :: gs)) = firstLeaf g := by
  rw [firstLeaf]

theorem detachLeaf_cons (i : Item) (d r : Nat) (g : Node) (gs : List Node) :
    (detachLeaf (Node.mk i d r (g :: gs))).children =
      if g.children.isEmpty then gs else detachLeaf g :: gs := by
  rw [detachLeaf]
  split
  · next h => simp [h]
  · next h => simp [h]

/-- The code's promotion loop returns the first-chain leaf's item and the
children array with that leaf detached from its immediate parent. -/
theorem promote_eq_spec : ∀ (g : Node) (gs : List Node),
    promote g gs = ((firstLeaf g).item,
      if g.children.isEmpty then gs else detachLeaf g :: gs) := by
  intro g
  induction g using nodeStrongInd with
  | _ g ih =>
    intro gs
    cases g with
    | mk i2 d2 r2 gcs =>
      cases gcs with
      | nil =>
        rw [promote, firstLeaf]
        rfl
      | cons h hs =>
        rw [promote]
        rw [ih h (by simp) hs, firstLeaf_cons]
        have hne : (Node.mk i2 d2 r2 (h :: hs)).children.isEmpty = false := by simp
        rw [hne]
        simp only [Bool.false_eq_true, if_false]
        rw [detachLeaf]
        split
        · next hhe => simp [hhe]
        · next hhe => simp [hhe]

/-- C3: when `delete` matches a node with children, it promotes the leaf
reached by repeatedly following the first child, detaches that leaf from
its immediate parent, installs in the matched node's slot a node carrying
the leaf's item together with the matched node's original depth, remainder
and remaining children, and returns the matched node's item, not the
leaf's. -/
theorem c3_delete_promotes (n : Node) (it : Item)
    (hok : (search n.children (modulo it.key n.depth)).1 = true)
    (hk : (childAt n (search n.children (modulo it.key n.depth)).2.1).item.key = it.key)
    (hc : (childAt n (search n.children (modulo it.key n.depth)).2.1).children ≠ []) :
    deleteNode n it =
      (some (childAt n (search n.children (modulo it.key n.depth)).2.1).item,
        Node.mk n.item n.depth n.remainder
          (n.children.set (search n.children (modulo it.key n.depth)).2.1
            (Node.mk
              (firstLeaf (childAt n
                (search n.children (modulo it.key n.depth)).2.1)).item
              (childAt n (search n.children (modulo it.key n.depth)).2.1).depth
              (childAt n (search n.children (modulo it.key n.depth)).2.1).remainder
              (detachLeaf (childAt n
                (search n.children (modulo it.key n.depth)).2.1)).children)), 1) := by
  cases hcc : (childAt n (search n.children (modulo it.key n.depth)).2.1).children with
  | nil => exact absurd hcc hc
  | cons g gs =>
    have h1 : firstLeaf (childAt n (search n.children (modulo it.key n.depth)).2.1) =
        firstLeaf g := by
      conv_lhs => rw [← Node.eta (childAt n (search n.children
        (modulo it.key n.depth)).2.1), hcc]
      rw [firstLeaf_cons]
    have h2 : (detachLeaf (childAt n
        (search n.children (modulo it.key n.depth)).2.1)).children =
        if g.children.isEmpty then gs else detachLeaf g :: gs := by
      conv_lhs => rw [← Node.eta (childAt n (search n.children
        (modulo it.key n.depth)).2.1), hcc]
      rw [detachLeaf_cons]
    rw [deleteNode_promote hok hk hcc, promote_eq_spec g gs, h1, h2]

theorem c3_delete_promotes_witness :
    deleteNode wnode (Item.mk 0 7) =
      (some (childAt wnode
          (search wnode.children (modulo (Item.mk 0 7).key wnode.depth)).2.1).item,
        Node.mk wnode.item wnode.depth wnode.remainder
          (wnode.children.set
            (search wnode.children (modulo (Item.mk 0 7).key wnode.depth)).2.1
            (Node.mk
              (firstLeaf (childAt wnode
                (search wnode.children (modulo (Item.mk 0 7).key wnode.depth)).2.1)).item
              (childAt wnode
                (search wnode.children (modulo (Item.mk 0 7).key wnode.depth)).2.1).depth
              (childAt wnode
                (search wnode.children
                  (modulo (Item.mk 0 7).key wnode.depth)).2.1).remainder
              (detachLeaf (childAt wnode
                (search wnode.children
                  (modulo (Item.mk 0 7).key wnode.depth)).2.1)).children)), 1) :=
  c3_delete_promotes wnode (Item.mk 0 7)
    (by simp [wnode, search, searchLoop, modulo, prime, primes])
    (by simp [wnode, childAt, search, searchLoop, modulo, prime, primes])
    (by simp [wnode, childAt, search, searchLoop, modulo, prime, primes])

theorem c6_delete_present_witness :
    ∃ j t', j ∈ itemsF (HTree.mk wnode 6 0).root.children ∧ j.key = (Item.mk 0 7).key ∧
      HTree.Delete (HTree.mk wnode 6 0) (Item.mk 0 7) = (some j, t') ∧
      t'.length = (HTree.mk wnode 6 0).length - 1 ∧ t'.Get (Item.mk 0 7) = none :=
  c6_delete_present (HTree.mk wnode 6 0) (Item.mk 0 7)
    (by simp [wnode, pinvN, pinvF, keysFit, itemsN, itemsF, prime, primes])
    (by simp [wnode, sinvN, sinvF, sortedRems])
    (by simp [wnode, itemsF])
    (by simp [wnode, itemsF])

/-! ## The iterator -/

/-- The `Iterator` from htree.go: parallel stacks of father nodes and of each
father's index among its own brothers (top of stack at the list head), the
current node and its index among its brothers.  The tree pointer field only
serves construction and is omitted. -/
structure IterState where
  fathers : List Node
  indexes : List Nat
  n : Node
  i : Nat

/-- The for-loop of `Iterator.Next`: pop fathers until one still has an
unvisited sibling past the current index.  Go pops the two parallel stacks
together; the one-sided case is Go's unreachable panic state. -/
def iterNextLoop : List Node → List Nat → Node → Nat → Bool × IterState
  | [], idxs, n, i => (false, ⟨[], idxs, n, i⟩)
  | father :: fs, idxs, n, i =>
    if i + 1 < father.children.length then
      (true, ⟨father :: fs, idxs, father.children.getD (i + 1) default, i + 1⟩)
    else
      match idxs with
      | [] => (false, ⟨father :: fs, [], n, i⟩)
      | j :: js => iterNextLoop fs js n j

/-- The `Iterator.Next`: descend to the first child when there is one, else pop
the father stack looking for a next sibling. -/
def iterNext (st : IterState) : Bool × IterState :=
  match st.n.children with
  | c :: _ => (true, ⟨st.n :: st.fathers, st.i :: st.indexes, c, 0⟩)
  | [] => iterNextLoop st.fathers st.indexes st.n st.i

/-- The `HTree.NewIterator`: positioned on the sentinel root with empty stacks. -/
def NewIterator (t : HTree) : IterState := ⟨[], [], t.root, 0⟩

/-- The `Iterator.Item`. -/
def IterState.item (st : IterState) : Item := st.n.item

/-- Drive the iterator as its users do (`for iter.Next() { use iter.Item() }`),
collecting the items of the first `fuel` successful `Next` calls. -/
def runIter : Nat → IterState → List Item
  | 0, _ => []
  | fuel + 1, st =>
    let p := iterNext st
    if p.1 then p.2.item :: runIter fuel p.2 else []

/-- The items the popped stack still owes: for each father frame, the
pre-order items of the siblings past the index in progress. -/
def pendingStack : List Node → List Nat → Nat → List Item
  | [], _, _ => []
  | father :: fs, j :: js, i =>
    itemsF (father.children.drop (i + 1)) ++ pendingStack fs js j
  | _ :: _, [], _ => []

/-- All items a state has yet to yield: the current node's subtree in
pre-order, then the stack's pending siblings. -/
def toYield (st : IterState) : List Item :=
  itemsF st.n.children ++ pendingStack st.fathers st.indexes st.i

theorem iterNextLoop_spec : ∀ (fs : List Node) (js : List Nat) (n : Node) (i : Nat),
    fs.length = js.length →
    (pendingStack fs js i = [] ∧ (iterNextLoop fs js n i).1 = false) ∨
    (∃ x rest, pendingStack fs js i = x :: rest ∧ (iterNextLoop fs js n i).1 = true ∧
      (iterNextLoop fs js n i).2.n.item = x ∧
      toYield (iterNextLoop fs js n i).2 = rest ∧
      (iterNextLoop fs js n i).2.fathers.length =
        (iterNextLoop fs js n i).2.indexes.length) := by
  intro fs
  induction fs with
  | nil =>
    intro js n i hlen
    exact Or.inl ⟨rfl, rfl⟩
  | cons father fs' ih =>
    intro js n i hlen
    cases js with
    | nil => simp at hlen
    | cons j js' =>
      rw [pendingStack, iterNextLoop]
      by_cases hcond : i + 1 < father.children.length
      · rw [if_pos hcond]
        refine Or.inr ⟨(father.children.getD (i + 1) default).item,
          itemsF (father.children.getD (i + 1) default).children ++
            (itemsF (father.children.drop (i + 1 + 1)) ++ pendingStack fs' js' j),
          ?_, rfl, rfl, ?_, by simpa using hlen⟩
        · rw [show father.children.drop (i + 1) =
            father.children.getD (i + 1) default :: father.children.drop (i + 1 + 1) by
              rw [List.drop_eq_getElem_cons hcond, List.getD_eq_getElem _ _ hcond]]
          rw [itemsF_cons, itemsN]
          simp only [List.cons_append, List.append_assoc]
        · rw [toYield]
          simp only [pendingStack]
      · rw [if_neg hcond]
        have hdrop : father.children.drop (i + 1) = [] :=
          List.drop_eq_nil_of_le (by omega)
        rw [hdrop, itemsF_nil, List.nil_append]
        exact ih js' n j (by simpa using hlen)

theorem iterNext_spec (st : IterState) (hlen : st.fathers.length = st.indexes.length) :
    (toYield st = [] ∧ (iterNext st).1 = false) ∨
    (∃ x rest, toYield st = x :: rest ∧ (iterNext st).1 = true ∧
      (iterNext st).2.n.item = x ∧ toYield (iterNext st).2 = rest ∧
      (iterNext st).2.fathers.length = (iterNext st).2.indexes.length) := by
  rw [iterNext]
  cases hch : st.n.children with
  | nil =>
    rw [toYield, hch, itemsF_nil, List.nil_append]
    exact iterNextLoop_spec st.fathers st.indexes st.n st.i hlen
  | cons c cs =>
    refine Or.inr ⟨c.item, _, ?_, rfl, rfl, rfl, by simpa using hlen⟩
    rw [toYield, hch, itemsF_cons, itemsN]
    rw [toYield]
    simp only [pendingStack, hch]
    rw [List.append_assoc]
    rfl

theorem runIter_toYield : ∀ (fuel : Nat) (st : IterState),
    st.fathers.length = st.indexes.length → (toYield st).length ≤ fuel →
    runIter fuel st = toYield st := by
  intro fuel
  induction fuel with
  | zero =>
    intro st hlen hle
    have h0 : toYield st = [] := List.length_eq_zero.1 (by omega)
    rw [runIter, h0]
  | succ fuel ih =>
    intro st hlen hle
    rcases iterNext_spec st hlen with ⟨hy, hb⟩ | ⟨x, rest, hy, hb, hx, hy', hlen'⟩
    · rw [runIter]
      simp only [hb, Bool.false_eq_true, if_false]
      exact hy.symm
    · rw [runIter]
      simp only [hb, if_true]
      rw [hy]
      have hrl : (toYield (iterNext st).2).length ≤ fuel := by
        rw [hy']
        have := congrArg List.length hy
        simp at this
        omega
      rw [IterState.item, hx, ih (iterNext st).2 hlen' hrl, hy']

/-! ## A fuel-indexed evaluator for `put`

`putNode` is compiled by well-founded recursion, so it does not reduce
inside the kernel; `putNodeF` is the same algorithm indexed by structural
fuel, proven equal whenever the fuel covers the node's size, which lets the
concrete `put` sequences below be checked by `rfl`. -/

theorem node_sizeOf_pos (n : Node) : 0 < sizeOf n := by
  cases n
  simp

def searchLoopF : Nat → List Node → Nat → Nat → Nat → Nat
  | 0, _, _, left, _ => left
  | fuel + 1, s, r, left, right =>
    if left < right then
      let mid := (left + right) / 2
      if r > ((s.getD mid default).remainder) then searchLoopF fuel s r (mid + 1) right
      else searchLoopF fuel s r left mid
    else left

theorem searchLoopF_eq : ∀ (fuel : Nat) (s : List Node) (r left right : Nat),
    right - left ≤ fuel → searchLoopF fuel s r left right = searchLoop s r left right := by
  intro fuel
  induction fuel with
  | zero =>
    intro s r left right h
    rw [searchLoopF, searchLoop]
    rw [if_neg (by omega)]
  | succ fuel ih =>
    intro s r left right h
    rw [searchLoopF, searchLoop]
    by_cases h1 : left < right
    · rw [if_pos h1, if_pos h1]
      simp only []
      by_cases h2 : r > ((s.getD ((left + right) / 2) default).remainder)
      · rw [if_pos h2, if_pos h2, ih _ _ _ _ (by omega)]
      · rw [if_neg h2, if_neg h2, ih _ _ _ _ (by omega)]
    · rw [if_neg h1, if_neg h1]

def searchF (s : List Node) (r : Nat) : Bool × Nat × Int :=
  match s with
  | [] => (false, 0, -1)
  | _ :: _ =>
    let fin := searchLoopF s.length s r 0 (s.length - 1)
    if (s.getD fin default).remainder = r then (true, fin, (fin : Int))
    else (false, fin, (fin : Int))

theorem searchF_eq (s : List Node) (r : Nat) : searchF s r = search s r := by
  cases s with
  | nil => rw [searchF, search]
  | cons c cs =>
    rw [searchF, search]
    rw [searchLoopF_eq _ _ _ _ _ (by omega)]

def putNodeF : Nat → Node → Item → Option Item × Node × Nat × Nat
  | 0, n, _ => (none, n, 0, 0)
  | fuel + 1, n, item =>
    let r := modulo item.key n.depth
    let s := searchF n.children r
    if s.1 = true then
      let child := n.children.getD s.2.1 default
      if child.item.key = item.key then
        (some child.item, n, 0, 1)
      else
        let res := putNodeF fuel child item
        (res.1, Node.mk n.item n.depth n.remainder (n.children.set s.2.1 res.2.1),
          res.2.2.1, res.2.2.2)
    else if n.depth ≥ primes.length - 1 then
      (none, n, 0, 0)
    else
      let child := newNode item (n.depth + 1) r
      let newChildren :=
        if n.children.length = 0 ∨
            (s.2.2 = (n.children.length : Int) - 1 ∧
              (n.children.getD s.2.2.toNat default).remainder ≤ r) then
          n.children ++ [child]
        else childInsert n.children s.2.2.toNat child
      (some child.item, Node.mk n.item n.depth n.remainder newChildren, 1, 0)

theorem putNodeF_eq : ∀ (fuel : Nat) (n : Node) (it : Item), sizeOf n ≤ fuel →
    putNodeF fuel n it = putNode n it := by
  intro fuel
  induction fuel with
  | zero =>
    intro n it h
    exact absurd h (by have := node_sizeOf_pos n; omega)
  | succ fuel ih =>
    intro n it h
    rw [putNodeF, putNode]
    rw [searchF_eq]
    by_cases hok : (search n.children (modulo it.key n.depth)).1 = true
    · rw [if_pos hok, dif_pos hok]
      by_cases hk : ((n.children.getD
          (search n.children (modulo it.key n.depth)).2.1 default).item.key = it.key)
      · rw [if_pos hk, if_pos hk]
      · rw [if_neg hk, if_neg hk]
        have hsz : sizeOf (n.children.getD
            (search n.children (modulo it.key n.depth)).2.1 default) ≤ fuel := by
          have := sizeOf_getD_lt n _ (search_ok_lt hok)
          omega
        rw [ih _ _ hsz]
    · rw [if_neg hok, dif_neg hok]

/-- The intermediate trees of putting keys 0..5 into a fresh tree. -/
def wtree0 : HTree := ⟨Node.mk ⟨0, 0⟩ 0 0 [Node.mk ⟨0, 0⟩ 1 0 []], 1, 0⟩

def wtree1 : HTree := ⟨Node.mk ⟨0, 0⟩ 0 0
  [Node.mk ⟨0, 0⟩ 1 0 [], Node.mk ⟨1, 1⟩ 1 1 []], 2, 0⟩

def wtree2 : HTree := ⟨Node.mk ⟨0, 0⟩ 0 0
  [Node.mk ⟨0, 0⟩ 1 0 [Node.mk ⟨2, 2⟩ 2 2 []], Node.mk ⟨1, 1⟩ 1 1 []], 3, 0⟩

def wtree3 : HTree := ⟨Node.mk ⟨0, 0⟩ 0 0
  [Node.mk ⟨0, 0⟩ 1 0 [Node.mk ⟨2, 2⟩ 2 2 []],
   Node.mk ⟨1, 1⟩ 1 1 [Node.mk ⟨3, 3⟩ 2 0 []]], 4, 0⟩

def wtree4 : HTree := ⟨Node.mk ⟨0, 0⟩ 0 0
  [Node.mk ⟨0, 0⟩ 1 0 [Node.mk ⟨4, 4⟩ 2 1 [], Node.mk ⟨2, 2⟩ 2 2 []],
   Node.mk ⟨1, 1⟩ 1 1 [Node.mk ⟨3, 3⟩ 2 0 []]], 5, 0⟩

theorem wput_step0 : (New.Put (uitem 0)).2 = wtree0 := by
  rw [HTree.Put, ← putNodeF_eq 1000 _ _ (by decide)]
  rfl

theorem wput_step1 : (wtree0.Put (uitem 1)).2 = wtree1 := by
  rw [HTree.Put, ← putNodeF_eq 1000 _ _ (by decide)]
  rfl

theorem wput_step2 : (wtree1.Put (uitem 2)).2 = wtree2 := by
  rw [HTree.Put, ← putNodeF_eq 1000 _ _ (by decide)]
  rfl

theorem wput_step3 : (wtree2.Put (uitem 3)).2 = wtree3 := by
  rw [HTree.Put, ← putNodeF_eq 1000 _ _ (by decide)]
  rfl

theorem wput_step4 : (wtree3.Put (uitem 4)).2 = wtree4 := by
  rw [HTree.Put, ← putNodeF_eq 1000 _ _ (by decide)]
  rfl

theorem wput_step5 : (wtree4.Put (uitem 5)).2 = ⟨wnode, 6, 0⟩ := by
  rw [HTree.Put, ← putNodeF_eq 1000 _ _ (by decide)]
  rfl

theorem putAll_w012345 : putAll New ([0, 1, 2, 3, 4, 5].map uitem) = ⟨wnode, 6, 0⟩ := by
  simp only [putAll, List.map, List.foldl]
  rw [wput_step0, wput_step1, wput_step2, wput_step3, wput_step4, wput_step5]

set_option maxRecDepth 100000 in
set_option maxHeartbeats 1000000 in
/-- C9: a fresh iterator yields, via successive successful `Next` calls,
exactly the stored items in pre-order (children-array order), hence exactly
N elements for a tree with N stored items and zero for an empty tree; in
particular, inserting keys 0..5 into a fresh tree and iterating yields the
item sequence 0, 4, 2, 1, 3, 5. -/
theorem c9_iterator_preorder :
    (∀ (t : HTree) (fuel : Nat), (itemsF t.root.children).length ≤ fuel →
      runIter fuel (NewIterator t) = itemsF t.root.children) ∧
    (∀ fuel : Nat, runIter fuel (NewIterator New) = []) ∧
    (runIter 6 (NewIterator (putAll New ([0, 1, 2, 3, 4, 5].map uitem))) =
      [uitem 0, uitem 4, uitem 2, uitem 1, uitem 3, uitem 5]) := by
  have hgen : ∀ (t : HTree) (fuel : Nat), (itemsF t.root.children).length ≤ fuel →
      runIter fuel (NewIterator t) = itemsF t.root.children := by
    intro t fuel hle
    have hy : toYield (NewIterator t) = itemsF t.root.children := by
      rw [toYield]
      simp [NewIterator, pendingStack]
    have h := runIter_toYield fuel (NewIterator t) rfl (by rw [hy]; exact hle)
    rw [h, hy]
  refine ⟨hgen, ?_, ?_⟩
  · intro fuel
    have := hgen New fuel (by simp [New])
    simpa [New] using this
  · rw [putAll_w012345]
    have h6 := hgen ⟨wnode, 6, 0⟩ 6 (by simp [wnode, itemsF])
    rw [h6]
    simp [wnode, itemsF, itemsN, uitem]


theorem c9_iterator_preorder_witness :
    runIter 6 (NewIterator (HTree.mk wnode 6 0)) = itemsF wnode.children :=
  c9_iterator_preorder.1 (HTree.mk wnode 6 0) 6 (by simp [wnode, itemsF, itemsN])

/-! ## C10: get is a pure observation -/

/-- The `Get` in the same state-transformer shape as `Put`/`Delete`: the Go
method reads the tree through its receiver pointer but contains no
assignment to any field or node, so the faithful state-passing translation
pairs the lookup's result with the tree unchanged. -/
def HTree.GetOp (t : HTree) (item : Item) : Option Item × HTree :=
  (getNode t.root item, t)

/-- C10: a `Get` call leaves `length()`, `conflicts()` and the entire node
structure (the whole root subtree, hence every node's item, depth,
remainder and children) unchanged, while returning the recursive lookup's
result. -/
theorem c10_get_is_pure (t : HTree) (it : Item) :
    (HTree.GetOp t it).2.root = t.root ∧
    (HTree.GetOp t it).2.length = t.length ∧
    (HTree.GetOp t it).2.conflicts = t.conflicts ∧
    (HTree.GetOp t it).1 = t.Get it :=
  ⟨rfl, rfl, rfl, rfl⟩

end HTreeGo
